import Mathlib

/-!
Verification of the macOS application-bundle metadata extractor
(src/Python/macOS-appDetect.py) against its specification.

The program is shallowly embedded: Python strings are `List Char`,
the filesystem and external tools are an explicit `Env` record, and each
Python function of the source is translated to a Lean definition of the
same name.  Machine-level concerns (process spawning, byte decoding) sit
behind the `Env.exec` boundary, exactly as the specification treats the
Tool Gateway as an opaque text-producing collaborator.
-/

set_option maxRecDepth 100000

/-- Python strings are modelled as lists of characters. -/
abbrev Str := List Char

/-- Convert a Lean string literal to the `Str` model. -/
def s2l (s : String) : Str := s.toList

/-- Python whitespace predicate, as used by str.strip, str.split and the
regex class backslash-s on text patterns (ASCII part plus the common
Unicode whitespace code points recognised by str.isspace). -/
def isPySpace (c : Char) : Bool :=
  c = ' ' || c = '\t' || c = '\n' || c = '\x0d' || c = '\x0b' || c = '\x0c' ||
  c = '\x1c' || c = '\x1d' || c = '\x1e' || c = '\x1f' || c = '\x85' || c = '\xa0' ||
  c = '\u1680' || ('\u2000' ≤ c && c ≤ '\u200a') || c = '\u2028' || c = '\u2029' ||
  c = '\u202f' || c = '\u205f' || c = '\u3000'

/-- Line boundary characters of Python str.splitlines (besides the
two-character boundary CR LF, handled separately). -/
def isLineBoundary (c : Char) : Bool :=
  c = '\n' || c = '\x0d' || c = '\x0b' || c = '\x0c' ||
  c = '\x1c' || c = '\x1d' || c = '\x1e' || c = '\x85' ||
  c = '\u2028' || c = '\u2029'

/-- Python str.strip with no arguments: remove leading and trailing
whitespace. -/
def pyStrip (s : Str) : Str :=
  ((s.dropWhile isPySpace).reverse.dropWhile isPySpace).reverse

/-- Worker for `pySplitlines`: accumulate the current line (reversed). -/
def pySplitlinesGo : Str → Str → List Str
  | [], acc => [acc.reverse]
  | '\x0d' :: '\n' :: r, acc =>
      if r.isEmpty then [acc.reverse] else acc.reverse :: pySplitlinesGo r []
  | c :: r, acc =>
      if isLineBoundary c then
        (if r.isEmpty then [acc.reverse] else acc.reverse :: pySplitlinesGo r [])
      else pySplitlinesGo r (c :: acc)

/-- Python str.splitlines. -/
def pySplitlines (s : Str) : List Str :=
  if s.isEmpty then [] else pySplitlinesGo s []

/-- Python str.rstrip(os.sep) with os.sep the forward slash. -/
def rstripSlash (s : Str) : Str :=
  (s.reverse.dropWhile (fun c => c = '/')).reverse

/-- Drop a literal from the front of a string, or fail:
the building block for literal regex fragments and str.startswith. -/
def dropLit : Str → Str → Option Str
  | [], s => some s
  | _ :: _, [] => none
  | c :: cs, d :: ds => if c = d then dropLit cs ds else none

/-- Python str.startswith. -/
def strStartsWith (s lit : Str) : Bool := (dropLit lit s).isSome

/-- Python str.endswith. -/
def strEndsWith (s lit : Str) : Bool := strStartsWith s.reverse lit.reverse

/-- Python str.split() with no argument: whitespace-separated tokens,
empty tokens discarded.  Used only to state the specification sentence
about "whitespace-separated architecture tokens". -/
def pyTokensGo : Str → Str → List Str
  | [], acc => if acc.isEmpty then [] else [acc.reverse]
  | c :: r, acc =>
      if isPySpace c then
        (if acc.isEmpty then pyTokensGo r [] else acc.reverse :: pyTokensGo r [])
      else pyTokensGo r (c :: acc)

/-- Python str.split() with no argument. -/
def pyTokens (s : Str) : List Str := pyTokensGo s []

/-!  The external world.  `exec` returns the decoded combined
standard-output/standard-error text of a command invocation, or `none`
when the invocation raises (missing binary, non-zero exit status, or any
other exception caught by the bare `except` of run_command).  `isDir`,
`isFile` and `plist` model os.path.isdir, os.path.isfile and the result
of plistlib on a given file (a string-keyed mapping; absent keys are
`none`, which also covers the parse-failure case where the mapping is
empty).  -/
structure Env where
  isDir : Str → Bool
  isFile : Str → Bool
  plist : Str → (Str → Option Str)
  exec : List Str → Option Str

/-- run_command: return the tool output, or the empty string when the
invocation failed — the try/except of the source collapses every
exception to the empty string, so the translation is total. -/
def run_command (env : Env) (cmd : List Str) : Str :=
  match env.exec cmd with
  | some out => out
  | none => []

/-- The architecture classifier applied to the stripped lipo listing:
the if-chain of get_architecture after the strip. -/
def archOfListing (out : Str) : Str :=
  if out.isEmpty then s2l "N/A"
  else if ' ' ∈ out then s2l "Universal"
  else if out = s2l "arm64" then s2l "Apple Silicon"
  else if out = s2l "x86_64" then s2l "Intel [64-bit]"
  else if out = s2l "i386" then s2l "Intel [32-bit]"
  else out

/-- get_architecture: run lipo -archs on the binary and classify the
stripped listing. -/
def get_architecture (env : Env) (binaryPath : Str) : Str :=
  archOfListing (pyStrip (run_command env [s2l "lipo", s2l "-archs", binaryPath]))

example : pyStrip (s2l "  a b\n") = s2l "a b" := by decide
example : pyTokens (s2l " a\tbb c ") = [s2l "a", s2l "bb", s2l "c"] := by decide
example : pySplitlines (s2l "a\nb\n") = [s2l "a", s2l "b"] := by decide
example : pySplitlines (s2l "\n") = [[]] := by decide
example : pySplitlines (s2l "") = [] := by decide
example : archOfListing (s2l "arm64 x86_64") = s2l "Universal" := by decide
example : archOfListing (s2l "arm64") = s2l "Apple Silicon" := by decide
example : archOfListing (s2l "arm64\tx86_64") = s2l "arm64\tx86_64" := by decide

/-!  The dependency-line matcher of parse_dependencies.

The source matches each stripped line against the regex

  caret (.*?) backslash-s+ lparen compatibility backslash-s+ version
  backslash-s+ ([^,]+), backslash-s+ current backslash-s+ version
  backslash-s+ ([0-9.]+) (, backslash-s* weak)? rparen dollar

with the standard backtracking semantics of the re module: the leading
lazy group takes the shortest prefix that lets the rest of the pattern
match, and inside the rest every quantified class is followed by a
character it cannot match, so maximal munch is exact — except for the
compatibility-version group, which can reclaim exactly one whitespace
character when the text after the whitespace run starts with a comma.
The functions below implement that deterministic residue of the
backtracking search. -/

/-- Characters of the regex class [0-9.]. -/
def isDigitDot (c : Char) : Bool := ('0' ≤ c && c ≤ '9') || c = '.'

/-- Regex fragment backslash-s+ : require at least one whitespace
character and consume the maximal run. -/
def reqWsPlus (s : Str) : Option Str :=
  if (s.takeWhile isPySpace).isEmpty then none else some (s.dropWhile isPySpace)

/-- Require one given character. -/
def reqChar (c : Char) : Str → Option Str
  | [] => none
  | d :: r => if d = c then some r else none

/-- True for the end-of-line anchor of the re module: end of input, or a
single trailing newline. -/
def lineEndOk (s : Str) : Bool := s.isEmpty || s = ['\n']

/-- Regex fragment backslash-s+ ([^,]+) , : whitespace run, then the
compatibility-version group up to the next comma.  When the character
after the whitespace run is already a comma the engine backtracks one
whitespace character into the group (possible only if the run has at
least two characters).  Returns the group and the residue starting at
the comma. -/
def depGroup2 (t : Str) : Option (Str × Str) :=
  let w := t.takeWhile isPySpace
  let r := t.dropWhile isPySpace
  if w.isEmpty then none
  else
    match r with
    | [] => none
    | c :: _ =>
      if c = ',' then
        (if 2 ≤ w.length then some ([w.getLastD ' '], r) else none)
      else some (r.takeWhile (fun d => ¬(d = ',')), r.dropWhile (fun d => ¬(d = ',')))

/-- The end of the dependency regex after the current-version group:
the optional weak marker, the closing parenthesis and the end anchor.
Once the character after the group is a comma the engine is committed
to the weak branch (the absent alternative would have to match the
closing parenthesis against that comma). -/
def depStage3 (g2 g3 : Str) (t14 : Str) : Option (Str × Str × Bool) :=
  match t14 with
  | ',' :: t15 =>
    match dropLit (s2l "weak") (t15.dropWhile isPySpace) with
    | none => none
    | some t17 =>
      match reqChar ')' t17 with
      | none => none
      | some t18 => if lineEndOk t18 then some (g2, g3, true) else none
  | ')' :: t15 => if lineEndOk t15 then some (g2, g3, false) else none
  | _ => none

/-- The current-version group [0-9.]+ of the dependency regex and the
ending after it. -/
def depStage2Tail (g2 t13 : Str) : Option (Str × Str × Bool) :=
  if (t13.takeWhile isDigitDot).isEmpty then none
  else depStage3 g2 (t13.takeWhile isDigitDot) (t13.dropWhile isDigitDot)

/-- The dependency regex from the comma after the compatibility-version
group: comma, whitespace, current, whitespace, version, whitespace, the
current-version group [0-9.]+, then the ending. -/
def depStage2 (g2 : Str) (t7 : Str) : Option (Str × Str × Bool) :=
  match reqChar ',' t7 with
  | none => none
  | some t8 =>
    match reqWsPlus t8 with
    | none => none
    | some t9 =>
      match dropLit (s2l "current") t9 with
      | none => none
      | some t10 =>
        match reqWsPlus t10 with
        | none => none
        | some t11 =>
          match dropLit (s2l "version") t11 with
          | none => none
          | some t12 =>
            match reqWsPlus t12 with
            | none => none
            | some t13 => depStage2Tail g2 t13

/-- Match everything of the dependency regex after the lazy group:
returns (compatibility version, current version, weak flag). -/
def matchDepTail (t : Str) : Option (Str × Str × Bool) :=
  match reqWsPlus t with
  | none => none
  | some t1 =>
    match reqChar '(' t1 with
    | none => none
    | some t2 =>
      match dropLit (s2l "compatibility") t2 with
      | none => none
      | some t3 =>
        match reqWsPlus t3 with
        | none => none
        | some t4 =>
          match dropLit (s2l "version") t4 with
          | none => none
          | some t5 =>
            match depGroup2 t5 with
            | none => none
            | some (g2, t7) => depStage2 g2 t7

/-- A dependency record: either the structured variant of a line that
matched the regex, or the raw stripped line. -/
inductive Dep where
  | structured (path compat current : Str) (weak : Bool)
  | raw (line : Str)
deriving DecidableEq, Repr

/-- One attempt of the lazy-group scan: if the tail pattern matched at
the current split, produce the full match with the reversed accumulator
as group 1; otherwise continue with the rest of the scan. -/
def depMatchStep (acc : Str) (res : Option (Str × Str × Bool))
    (k : Option (Str × Str × Str × Bool)) : Option (Str × Str × Str × Bool) :=
  match res with
  | some (x, y, w) => some (acc.reverse, x, y, w)
  | none => k

/-- The lazy leading group: try every split point left to right and take
the first one whose residue matches the tail pattern.  The dot of the
regex cannot cross a newline, so the scan stops at one. -/
def depMatchGo (acc : Str) : Str → Option (Str × Str × Str × Bool)
  | [] => depMatchStep acc (matchDepTail []) none
  | c :: r =>
    depMatchStep acc (matchDepTail (c :: r))
      (if c = '\n' then none else depMatchGo (c :: acc) r)

/-- Full-line match of the dependency regex: group 1 (path), group 2
(compatibility version), group 3 (current version), weak flag. -/
def depMatch (l : Str) : Option (Str × Str × Str × Bool) := depMatchGo [] l

/-- The body of the per-line loop of parse_dependencies: skip blank
lines, produce a structured record on a regex match and a raw record
otherwise. -/
def depRecordOfLine (line : Str) : Option Dep :=
  let s := pyStrip line
  if s.isEmpty then none
  else
    match depMatch s with
    | some (p, x, y, w) => some (.structured p x y w)
    | none => some (.raw s)

/-- The accumulating loop of parse_dependencies (deps.append). -/
def depLoop (acc : List Dep) : List Str → List Dep
  | [] => acc
  | l :: ls =>
    match depRecordOfLine l with
    | some d => depLoop (acc ++ [d]) ls
    | none => depLoop acc ls

/-- parse_dependencies applied to the otool -L output text: skip the
first line (the binary naming itself) and structure the rest. -/
def depsOfText (txt : Str) : List Dep :=
  let lines := pySplitlines txt
  if 1 < lines.length then depLoop [] (lines.drop 1) else []

/-- parse_dependencies: run otool -L and parse the listing. -/
def parse_dependencies (env : Env) (binaryPath : Str) : List Dep :=
  depsOfText (run_command env [s2l "otool", s2l "-L", binaryPath])

example :
    depMatch (s2l "/usr/lib/a.dylib (compatibility version 1.0, current version 2.5)") =
      some (s2l "/usr/lib/a.dylib", s2l "1.0", s2l "2.5", false) := by decide
example :
    depMatch (s2l "/usr/lib/a.dylib (compatibility version 1.0, current version 2.5, weak)") =
      some (s2l "/usr/lib/a.dylib", s2l "1.0", s2l "2.5", true) := by decide
example :
    depMatch (s2l "/usr/lib/a.dylib (compatibility version 1.0, current version 2.5b1)") =
      none := by decide
example :
    depsOfText (s2l "self:\n/u/a (compatibility version 1.0, current version 2.0)\n\njunk line") =
      [Dep.structured (s2l "/u/a") (s2l "1.0") (s2l "2.0") false, Dep.raw (s2l "junk line")] := by
  decide

/-!  The SDK-version extractor.  get_sdk_version tries four regex
searches in order:

1. caret backslash-s* sdk backslash-s+ ([0-9.]+)   (MULTILINE)
2. cmd LC_BUILD_VERSION .*? sdk backslash-s+ ([0-9.]+)   (DOTALL)
3. cmd LC_VERSION_MIN_MACOSX .*? sdk backslash-s+ ([0-9.]+)   (DOTALL)
4. sdk backslash-s+ ([0-9.]+)

For 2 and 3 the leftmost search anchored at the first occurrence of the
literal command label succeeds exactly when an sdk fragment occurs
anywhere after it (the lazy dot-star under DOTALL crosses lines), and
then yields the first such fragment; a later occurrence of the label
cannot produce a match when the first cannot, because any sdk fragment
after a later occurrence also lies after the first. -/

/-- Match the fragment sdk backslash-s+ ([0-9.]+) at the start of the
input, returning the captured version. -/
def matchSdkAt (s : Str) : Option Str :=
  match dropLit (s2l "sdk") s with
  | none => none
  | some r =>
    match reqWsPlus r with
    | none => none
    | some r2 =>
      let g := r2.takeWhile isDigitDot
      if g.isEmpty then none else some g

/-- Leftmost search for the sdk fragment. -/
def searchSdkPat : Str → Option Str
  | [] => none
  | c :: r =>
    match matchSdkAt (c :: r) with
    | some v => some v
    | none => searchSdkPat r

/-- Match backslash-s* sdk backslash-s+ ([0-9.]+) at a line start. -/
def matchSdkLineAt (s : Str) : Option Str := matchSdkAt (s.dropWhile isPySpace)

/-- Try the line-anchored sdk pattern at every position following a
newline, left to right. -/
def sdkStandaloneRest : Str → Option Str
  | [] => none
  | c :: r =>
    if c = '\n' then
      match matchSdkLineAt r with
      | some v => some v
      | none => sdkStandaloneRest r
    else sdkStandaloneRest r

/-- Matcher 1: the MULTILINE search for a standalone sdk line (start of
text, or after any newline). -/
def sdkStandalone (txt : Str) : Option Str :=
  match matchSdkLineAt txt with
  | some v => some v
  | none => sdkStandaloneRest txt

/-- Leftmost occurrence of a literal; returns the residue after it. -/
def findAfterLit (lit : Str) : Str → Option Str
  | [] => dropLit lit []
  | c :: r =>
    match dropLit lit (c :: r) with
    | some rest => some rest
    | none => findAfterLit lit r

/-- Matchers 2 and 3: the literal command label, then (lazily) the first
sdk fragment anywhere after it. -/
def sdkAfterLit (lit txt : Str) : Option Str :=
  match findAfterLit lit txt with
  | some rest => searchSdkPat rest
  | none => none

/-- The body of get_sdk_version applied to the otool -l text: the four
matchers tried in order, empty string when all fail. -/
def sdkFromText (txt : Str) : Str :=
  match sdkStandalone txt with
  | some v => v
  | none =>
    match sdkAfterLit (s2l "cmd LC_BUILD_VERSION") txt with
    | some v => v
    | none =>
      match sdkAfterLit (s2l "cmd LC_VERSION_MIN_MACOSX") txt with
      | some v => v
      | none =>
        match searchSdkPat txt with
        | some v => v
        | none => []

/-- get_sdk_version: run otool -l and extract the SDK version. -/
def get_sdk_version (env : Env) (binaryPath : Str) : Str :=
  sdkFromText (run_command env [s2l "otool", s2l "-l", binaryPath])

/-- Characters of the regex class [0-9A-Fa-f-]. -/
def isHexHyphen (c : Char) : Bool :=
  ('0' ≤ c && c ≤ '9') || ('A' ≤ c && c ≤ 'F') || ('a' ≤ c && c ≤ 'f') || c = '-'

/-- Match the fragment uuid backslash-s+ ([0-9A-Fa-f-]+). -/
def matchUuidAt (s : Str) : Option Str :=
  match dropLit (s2l "uuid") s with
  | none => none
  | some r =>
    match reqWsPlus r with
    | none => none
    | some r2 =>
      let g := r2.takeWhile isHexHyphen
      if g.isEmpty then none else some g

/-- Leftmost search for the uuid fragment. -/
def searchUuidPat : Str → Option Str
  | [] => none
  | c :: r =>
    match matchUuidAt (c :: r) with
    | some v => some v
    | none => searchUuidPat r

/-- get_uuid: first uuid load-command value of the otool -l dump, empty
string when absent. -/
def get_uuid (env : Env) (binaryPath : Str) : Str :=
  match searchUuidPat (run_command env [s2l "otool", s2l "-l", binaryPath]) with
  | some v => v
  | none => []

/-!  The signing-info parser. -/

/-- One structured signing fact. -/
structure SigningFact where
  type : Str
  value : Str
deriving DecidableEq, Repr

/-- Python s.split(eq-sign, 1): split at the first equals sign; a string
without one stays whole. -/
def splitEq1 (s : Str) : List Str :=
  let pre := s.takeWhile (fun c => ¬(c = '='))
  let post := s.dropWhile (fun c => ¬(c = '='))
  match post with
  | [] => [s]
  | _ :: r => [pre, r]

/-- The prefix recognition of get_codesign_info on the stripped line:
the three recognised prefixes, split on the first equals sign,
everything else ignored. -/
def factOfStripped (s : Str) : Option SigningFact :=
  if strStartsWith s (s2l "Authority=") then
    match splitEq1 s with
    | [_, v] => some ⟨s2l "Authority", v⟩
    | _ => none
  else if strStartsWith s (s2l "TeamIdentifier=") then
    match splitEq1 s with
    | [_, v] => some ⟨s2l "TeamIdentifier", v⟩
    | _ => none
  else if strStartsWith s (s2l "Signature=") then
    match splitEq1 s with
    | [_, v] => some ⟨s2l "Signature", v⟩
    | _ => none
  else none

/-- The per-line body of get_codesign_info: strip, then recognise. -/
def factOfLine (line : Str) : Option SigningFact := factOfStripped (pyStrip line)

/-- The accumulating loop of get_codesign_info (results.append). -/
def csLoop (acc : List SigningFact) : List Str → List SigningFact
  | [] => acc
  | l :: ls =>
    match factOfLine l with
    | some f => csLoop (acc ++ [f]) ls
    | none => csLoop acc ls

/-- get_codesign_info applied to the codesign output text. -/
def factsOfText (txt : Str) : List SigningFact := csLoop [] (pySplitlines txt)

/-- get_codesign_info: run codesign -dv --verbose=4 against the bundle
and parse the dump. -/
def get_codesign_info (env : Env) (appBundle : Str) : List SigningFact :=
  factsOfText (run_command env [s2l "codesign", s2l "-dv", s2l "--verbose=4", appBundle])

/-!  process_app: descriptor reading and facet assembly. -/

/-- The four optional-facet flags of the command line. -/
structure Args where
  uuid : Bool
  deps : Bool
  sdk : Bool
  codesign : Bool
deriving DecidableEq, Repr

/-- Info.plist key of the short version string. -/
def kShortVersion : Str := s2l "CFBundleShortVersionString"

/-- Info.plist key of the build version. -/
def kBuildVersion : Str := s2l "CFBundleVersion"

/-- Info.plist key of the minimum OS version. -/
def kMinSystem : Str := s2l "LSMinimumSystemVersion"

/-- Info.plist key of the executable name. -/
def kExecutable : Str := s2l "CFBundleExecutable"

/-- The version derivation of process_app:
info.get(short) or info.get(build, N/A) — Python `or` falls through on
a missing key and on a falsy (empty) present value alike. -/
def bundleVersion (info : Str → Option Str) : Str :=
  match info kShortVersion with
  | some v => if v.isEmpty then (info kBuildVersion).getD (s2l "N/A") else v
  | none => (info kBuildVersion).getD (s2l "N/A")

/-- The minimum-OS derivation of process_app: info.get(min, N/A). -/
def bundleMinOS (info : Str → Option Str) : Str :=
  (info kMinSystem).getD (s2l "N/A")

/-- Path of the bundle descriptor: os.path.join(app, Contents,
Info.plist). -/
def plistPathOf (p : Str) : Str := p ++ s2l "/Contents/Info.plist"

/-- Path of the main executable: os.path.join(app, Contents, MacOS,
exe); an absolute executable component resets the join as in os.path. -/
def binPathOf (env : Env) (p : Str) : Str :=
  let exe := (env.plist (plistPathOf p) kExecutable).getD []
  if strStartsWith exe (s2l "/") then exe else p ++ s2l "/Contents/MacOS/" ++ exe

/-- A metadata value: a plain string, a dependency list, or a signing
fact list. -/
inductive Value where
  | str (s : Str)
  | deps (ds : List Dep)
  | signs (fs : List SigningFact)
deriving DecidableEq, Repr

/-- One assembled record: an insertion-ordered field mapping, exactly
the shape of the Python dict that process_app builds. -/
abbrev Meta := List (Str × Value)

/-- The diagnostic emitted for a bundle whose descriptor is missing
(colour codes stripped). -/
def warnLine (plistPath appPath : Str) : Str :=
  s2l "Warning: " ++ plistPath ++ s2l " not found. Skipping " ++ appPath ++ s2l "."

/-- The record assembly of process_app, after the directory and
descriptor checks have passed. -/
def assembleMeta (env : Env) (args : Args) (p : Str) : Meta :=
  let info := env.plist (plistPathOf p)
  let version := bundleVersion info
  let minMacos := bundleMinOS info
  let bin := binPathOf env p
  let arch := if env.isFile bin then get_architecture env bin else s2l "N/A"
  let m0 : Meta := [(s2l "app", .str p), (s2l "version", .str version),
    (s2l "minimum_macos", .str minMacos), (s2l "architecture", .str arch)]
  let m1 := if args.uuid && env.isFile bin then
      m0 ++ [(s2l "uuid", .str (get_uuid env bin))] else m0
  let m2 := if args.deps && env.isFile bin then
      m1 ++ [(s2l "dependencies", .deps (parse_dependencies env bin))] else m1
  let m3 := if args.sdk && env.isFile bin then
      m2 ++ [(s2l "sdk_version", .str (get_sdk_version env bin))] else m2
  if args.codesign then
    m3 ++ [(s2l "codesign_info", .signs (get_codesign_info env p))] else m3

/-- process_app: returns the assembled record (or none) together with
the diagnostic lines written to standard error. -/
def process_app (env : Env) (args : Args) (path : Str) : Option Meta × List Str :=
  let p := rstripSlash path
  if env.isDir p && strEndsWith p (s2l ".app") then
    (if env.isFile (plistPathOf p) then (some (assembleMeta env args p), [])
     else (none, [warnLine (plistPathOf p) p]))
  else (none, [])

/-- The metadata-gathering loop of main: one process_app call per
candidate path, appending each non-none record. -/
def gather (env : Env) (args : Args) : List Str → List Meta × List Str
  | [] => ([], [])
  | a :: rest =>
    let pr := process_app env args a
    let g := gather env args rest
    ((match pr.1 with | some m => m :: g.1 | none => g.1), pr.2 ++ g.2)

/-- The field names of a record, in insertion order. -/
def metaKeys (m : Meta) : List Str := m.map (fun kv => kv.1)

example : sdkFromText (s2l "cmd LC_BUILD_VERSION\n  sdk 14.0\n") = s2l "14.0" := by decide
example : sdkFromText (s2l "xcmd LC_BUILD_VERSION q sdk 13.0\nsdk 14.0") = s2l "14.0" := by decide
example : sdkFromText (s2l "nothing here") = [] := by decide
example : factsOfText (s2l "junk\nAuthority=Apple Inc.\n TeamIdentifier=ABC12\n") =
    [⟨s2l "Authority", s2l "Apple Inc."⟩, ⟨s2l "TeamIdentifier", s2l "ABC12"⟩] := by decide
example : bundleVersion (fun k => if k = kShortVersion then some [] else
    if k = kBuildVersion then some (s2l "1.0") else none) = s2l "1.0" := by decide

/-!  The structured renderer and its inverse.

main serialises the gathered record collection with json.dumps, either
compactly (item separator comma-space, key separator colon-space) or
indented by four spaces (indent=4, item separator comma followed by a
newline and padding).  Both layouts are instances of one token stream
with whitespace decorations, captured by `JStyle`.  `json_loads` is the
decoder of that output: a JSON reader for the emitted grammar
(strings with the full escape repertoire of the ensure_ascii encoder,
including surrogate pairs; objects and arrays with arbitrary
interleaved whitespace). -/

/-- JSON whitespace accepted between tokens by the decoder. -/
def jsonWs (c : Char) : Bool := c = ' ' || c = '\t' || c = '\n' || c = '\x0d'

/-- Skip inter-token whitespace. -/
def skipJWs (s : Str) : Str := s.dropWhile jsonWs

/-- Whitespace decorations of a serialisation layout.  Each function
takes the indent level of the enclosing container. -/
structure JStyle where
  afterOpen : Nat → Str
  afterComma : Nat → Str
  beforeClose : Nat → Str
  afterColon : Str

/-- Four-space padding of json.dumps(indent=4). -/
def pad (n : Nat) : Str := List.replicate (4 * n) ' '

/-- The compact layout of json.dumps with default separators. -/
def compactStyle : JStyle := ⟨fun _ => [], fun _ => [' '], fun _ => [], [' ']⟩

/-- The indented layout of json.dumps(indent=4). -/
def indentStyle : JStyle :=
  ⟨fun l => '\n' :: pad (l + 1), fun l => '\n' :: pad (l + 1), fun l => '\n' :: pad l, [' ']⟩

/-- Lower-case hexadecimal digit. -/
def hexDig (n : Nat) : Char := if n < 10 then Char.ofNat (48 + n) else Char.ofNat (87 + n)

/-- Four-digit lower-case hexadecimal rendering of n < 65536. -/
def hex4 (n : Nat) : Str :=
  [hexDig (n / 4096 % 16), hexDig (n / 256 % 16), hexDig (n / 16 % 16), hexDig (n % 16)]

/-- Escape one character as the ensure_ascii encoder of json.dumps
does: the two metacharacters and five control shorthands, printable
ASCII verbatim, everything else as a u-escape, with astral characters
as a surrogate pair. -/
def escChar (c : Char) : Str :=
  if c = '"' then ['\\', '"']
  else if c = '\\' then ['\\', '\\']
  else if c = '\n' then ['\\', 'n']
  else if c = '\x0d' then ['\\', 'r']
  else if c = '\t' then ['\\', 't']
  else if c = '\x08' then ['\\', 'b']
  else if c = '\x0c' then ['\\', 'f']
  else if 32 ≤ c.toNat ∧ c.toNat ≤ 126 then [c]
  else if c.toNat < 65536 then '\\' :: 'u' :: hex4 c.toNat
  else
    ('\\' :: 'u' :: hex4 (55296 + (c.toNat - 65536) / 1024)) ++
      ('\\' :: 'u' :: hex4 (56320 + (c.toNat - 65536) % 1024))

/-- JSON string literal of a string value. -/
def encStr (s : Str) : Str := '"' :: ((s.map escChar).flatten ++ ['"'])

/-- Join pre-rendered items with a separator. -/
def joinSep (sep : Str) : List Str → Str
  | [] => []
  | [x] => x
  | x :: xs => x ++ sep ++ joinSep sep xs

/-- A container (object or array) in a given layout at a given indent
level; empty containers collapse as json.dumps does. -/
def encContainer (op cl : Char) (st : JStyle) (lvl : Nat) (items : List Str) : Str :=
  match items with
  | [] => [op, cl]
  | _ => op :: (st.afterOpen lvl ++ joinSep (',' :: st.afterComma lvl) items ++
      st.beforeClose lvl ++ [cl])

/-- A rendered key/value member. -/
def encKV (st : JStyle) (k : Str) (v : Str) : Str := encStr k ++ ':' :: st.afterColon ++ v

/-- Serialised signing fact. -/
def encFact (st : JStyle) (lvl : Nat) (f : SigningFact) : Str :=
  encContainer '\x7b' '\x7d' st lvl
    [encKV st (s2l "type") (encStr f.type), encKV st (s2l "value") (encStr f.value)]

/-- Serialised dependency record (structured or raw shape). -/
def encDep (st : JStyle) (lvl : Nat) : Dep → Str
  | .structured p x y w =>
    encContainer '\x7b' '\x7d' st lvl
      [encKV st (s2l "path") (encStr p),
       encKV st (s2l "compatibility_version") (encStr x),
       encKV st (s2l "current_version") (encStr y),
       encKV st (s2l "weak") (if w then s2l "true" else s2l "false")]
  | .raw r => encContainer '\x7b' '\x7d' st lvl [encKV st (s2l "raw") (encStr r)]

/-- Serialised field value. -/
def encValue (st : JStyle) (lvl : Nat) : Value → Str
  | .str s => encStr s
  | .deps ds => encContainer '[' ']' st lvl (ds.map (encDep st (lvl + 1)))
  | .signs fs => encContainer '[' ']' st lvl (fs.map (encFact st (lvl + 1)))

/-- Serialised record. -/
def encMeta (st : JStyle) (lvl : Nat) (m : Meta) : Str :=
  encContainer '\x7b' '\x7d' st lvl
    (m.map fun kv => encKV st kv.1 (encValue st (lvl + 1) kv.2))

/-- json.dumps of the record collection in the given layout. -/
def json_dumps (st : JStyle) (rs : List Meta) : Str :=
  encContainer '[' ']' st 0 (rs.map (encMeta st 1))

/-- Hexadecimal digit value (both cases accepted). -/
def readHexDigit (c : Char) : Option Nat :=
  if '0' ≤ c ∧ c ≤ '9' then some (c.toNat - 48)
  else if 'a' ≤ c ∧ c ≤ 'f' then some (c.toNat - 87)
  else if 'A' ≤ c ∧ c ≤ 'F' then some (c.toNat - 55)
  else none

/-- Single-character escape shorthands of JSON. -/
def escapeOf (e : Char) : Option Char :=
  if e = '"' then some '"'
  else if e = '\\' then some '\\'
  else if e = '/' then some '/'
  else if e = 'n' then some '\n'
  else if e = 'r' then some '\x0d'
  else if e = 't' then some '\t'
  else if e = 'b' then some '\x08'
  else if e = 'f' then some '\x0c'
  else none

/-- Decode four hexadecimal digits into their value. -/
def parseU4 (r2 : Str) : Option (Nat × Str) :=
  match r2 with
  | a :: b :: c2 :: d :: r3 =>
    match readHexDigit a, readHexDigit b, readHexDigit c2, readHexDigit d with
    | some va, some vb, some vc, some vd => some (((va * 16 + vb) * 16 + vc) * 16 + vd, r3)
    | _, _, _, _ => none
  | _ => none

/-- Decode the remainder of a u-escape (after backslash-u): one code
unit, or a surrogate pair recombined into one scalar value. -/
def parseUEscape (r2 : Str) : Option (Char × Str) :=
  match parseU4 r2 with
  | none => none
  | some (n, r3) =>
    if 55296 ≤ n ∧ n < 56320 then
      match r3 with
      | c1 :: c2 :: r4pre =>
        if c1 = '\\' ∧ c2 = 'u' then
          match parseU4 r4pre with
          | none => none
          | some (w, r4) =>
            if 56320 ≤ w ∧ w < 57344 then
              some (Char.ofNat (65536 + (n - 55296) * 1024 + (w - 56320)), r4)
            else none
        else none
      | _ => none
    else if 56320 ≤ n ∧ n < 57344 then none
    else some (Char.ofNat n, r3)

/-- Decode one logical string character: a plain character, a
single-character escape, or a u-escape.  Fails at a closing quote. -/
def parseOneChar : Str → Option (Char × Str)
  | [] => none
  | c :: r =>
    if c = '\\' then
      match r with
      | [] => none
      | e :: r2 =>
        if e = 'u' then parseUEscape r2
        else
          match escapeOf e with
          | some ec => some (ec, r2)
          | none => none
    else if c = '"' then none
    else some (c, r)

/-- Decode a JSON string body (after the opening quote) up to the
closing quote, one logical character at a time.  The fuel bounds the
number of decoded characters; each one consumes at least one input
character, so the input length suffices. -/
def parseStrBodyF : Nat → Str → Option (Str × Str)
  | 0, _ => none
  | fuel + 1, s =>
    match s with
    | [] => none
    | c :: r =>
      if c = '"' then some ([], r)
      else
        match parseOneChar (c :: r) with
        | none => none
        | some (d, rest) =>
          match parseStrBodyF fuel rest with
          | none => none
          | some (out, rest2) => some (d :: out, rest2)

/-- Decode a JSON string literal. -/
def parseString : Str → Option (Str × Str)
  | '"' :: r => parseStrBodyF (r.length + 1) r
  | _ => none

/-- Decode a JSON boolean literal. -/
def parseBool (s : Str) : Option (Bool × Str) :=
  match dropLit (s2l "true") s with
  | some r => some (true, r)
  | none =>
    match dropLit (s2l "false") s with
    | some r => some (false, r)
    | none => none

example : parseString (encStr (s2l "a\"b\\c\nd\x01é😀")) = some (s2l "a\"b\\c\nd\x01é😀", []) := by
  decide

/-- Decode one member of the form "key": "string value", returning the
key, value and residue. -/
def parseStrField (s : Str) : Option (Str × Str × Str) :=
  match parseString s with
  | some (k, r1) =>
    match reqChar ':' (skipJWs r1) with
    | some r2 =>
      match parseString (skipJWs r2) with
      | some (v, r3) => some (k, v, r3)
      | none => none
    | none => none
  | _ => none

/-- Decode one signing-fact object of the emitted grammar. -/
def parseFactObj (s : Str) : Option (SigningFact × Str) :=
  match s with
  | [] => none
  | c0 :: r =>
    if c0 = '\x7b' then
    match parseStrField (skipJWs r) with
    | some (k1, v1, r1) =>
      if k1 = s2l "type" then
        match reqChar ',' (skipJWs r1) with
        | some r2 =>
          match parseStrField (skipJWs r2) with
          | some (k2, v2, r3) =>
            if k2 = s2l "value" then
              match reqChar '\x7d' (skipJWs r3) with
              | some r4 => some (⟨v1, v2⟩, r4)
              | none => none
            else none
          | none => none
        | none => none
      else none
    | none => none
    else none

/-- Decode one dependency object of the emitted grammar: either the
raw shape or the four-field structured shape. -/
def parseDepObj (s : Str) : Option (Dep × Str) :=
  match s with
  | [] => none
  | c0 :: r =>
    if c0 = '\x7b' then
    match parseStrField (skipJWs r) with
    | some (k1, v1, r1) =>
      if k1 = s2l "raw" then
        match reqChar '\x7d' (skipJWs r1) with
        | some r2 => some (.raw v1, r2)
        | none => none
      else if k1 = s2l "path" then
        match reqChar ',' (skipJWs r1) with
        | some r2 =>
          match parseStrField (skipJWs r2) with
          | some (k2, v2, r3) =>
            if k2 = s2l "compatibility_version" then
              match reqChar ',' (skipJWs r3) with
              | some r4 =>
                match parseStrField (skipJWs r4) with
                | some (k3, v3, r5) =>
                  if k3 = s2l "current_version" then
                    match reqChar ',' (skipJWs r5) with
                    | some r6 =>
                      match parseString (skipJWs r6) with
                      | some (k4, r7) =>
                        if k4 = s2l "weak" then
                          match reqChar ':' (skipJWs r7) with
                          | some r8 =>
                            match parseBool (skipJWs r8) with
                            | some (w, r9) =>
                              match reqChar '\x7d' (skipJWs r9) with
                              | some r10 => some (.structured v1 v2 v3 w, r10)
                              | none => none
                            | none => none
                          | none => none
                        else none
                      | none => none
                    | none => none
                  else none
                | none => none
              | none => none
            else none
          | none => none
        | none => none
      else none
    | none => none
    else none

/-- Decode the comma-separated items of a non-empty dependency array,
up to and including the closing bracket. -/
def parseDepItems : Nat → Str → Option (List Dep × Str)
  | 0, _ => none
  | fuel + 1, s =>
    match parseDepObj s with
    | some (d, r) =>
      (match skipJWs r with
       | [] => none
       | c :: r2 =>
         if c = ',' then
           match parseDepItems fuel (skipJWs r2) with
           | some (ds, r3) => some (d :: ds, r3)
           | none => none
         else if c = ']' then some ([d], r2)
         else none)
    | none => none

/-- Decode a dependency array. -/
def parseDepArr (s : Str) : Option (List Dep × Str) :=
  match s with
  | [] => none
  | c0 :: r =>
    if c0 = '[' then
      match skipJWs r with
      | [] => none
      | c :: r2 =>
        if c = ']' then some ([], r2)
        else parseDepItems (r2.length + 2) (c :: r2)
    else none

/-- Decode the comma-separated items of a non-empty signing-fact
array. -/
def parseFactItems : Nat → Str → Option (List SigningFact × Str)
  | 0, _ => none
  | fuel + 1, s =>
    match parseFactObj s with
    | some (f, r) =>
      (match skipJWs r with
       | [] => none
       | c :: r2 =>
         if c = ',' then
           match parseFactItems fuel (skipJWs r2) with
           | some (fs, r3) => some (f :: fs, r3)
           | none => none
         else if c = ']' then some ([f], r2)
         else none)
    | none => none

/-- Decode a signing-fact array. -/
def parseFactArr (s : Str) : Option (List SigningFact × Str) :=
  match s with
  | [] => none
  | c0 :: r =>
    if c0 = '[' then
      match skipJWs r with
      | [] => none
      | c :: r2 =>
        if c = ']' then some ([], r2)
        else parseFactItems (r2.length + 2) (c :: r2)
    else none

/-- Decode a field value, directed by the field name: the two typed
collection fields carry arrays, every other field a string. -/
def parseFieldValue (k : Str) (s : Str) : Option (Value × Str) :=
  if k = s2l "dependencies" then
    match parseDepArr s with
    | some (ds, r) => some (.deps ds, r)
    | none => none
  else if k = s2l "codesign_info" then
    match parseFactArr s with
    | some (fs, r) => some (.signs fs, r)
    | none => none
  else
    match parseString s with
    | some (v, r) => some (.str v, r)
    | none => none

/-- Decode the comma-separated members of a non-empty record object,
up to and including the closing brace. -/
def parseMetaFields : Nat → Str → Option (Meta × Str)
  | 0, _ => none
  | fuel + 1, s =>
    match parseString s with
    | some (k, r) =>
      (match reqChar ':' (skipJWs r) with
       | some r2 =>
         (match parseFieldValue k (skipJWs r2) with
          | some (v, r3) =>
            (match skipJWs r3 with
             | [] => none
             | c :: r4 =>
               if c = ',' then
                 match parseMetaFields fuel (skipJWs r4) with
                 | some (m, r5) => some ((k, v) :: m, r5)
                 | none => none
               else if c = '\x7d' then some ([(k, v)], r4)
               else none)
          | none => none)
       | none => none)
    | none => none

/-- Decode one record object. -/
def parseMetaObj (s : Str) : Option (Meta × Str) :=
  match s with
  | [] => none
  | c0 :: r =>
    if c0 = '\x7b' then
      match skipJWs r with
      | [] => none
      | c :: r2 =>
        if c = '\x7d' then some ([], r2)
        else parseMetaFields (r2.length + 2) (c :: r2)
    else none

/-- Decode the comma-separated items of a non-empty record array. -/
def parseMetaItems : Nat → Str → Option (List Meta × Str)
  | 0, _ => none
  | fuel + 1, s =>
    match parseMetaObj s with
    | some (m, r) =>
      (match skipJWs r with
       | [] => none
       | c :: r2 =>
         if c = ',' then
           match parseMetaItems fuel (skipJWs r2) with
           | some (ms, r3) => some (m :: ms, r3)
           | none => none
         else if c = ']' then some ([m], r2)
         else none)
    | none => none

/-- json.loads of a serialised record collection: the top-level array,
with nothing but whitespace allowed after it. -/
def json_loads (s : Str) : Option (List Meta) :=
  match skipJWs s with
  | [] => none
  | c0 :: r =>
    if c0 = '[' then
      match skipJWs r with
      | [] => none
      | c :: r2 =>
        if c = ']' then (if (skipJWs r2).isEmpty then some [] else none)
        else
          match parseMetaItems (r2.length + 2) (c :: r2) with
          | some (ms, rest) => if (skipJWs rest).isEmpty then some ms else none
          | none => none
    else none

/-- Well-typedness of one record member for decoding: the two
collection field names carry their collection values and no other
field does.  Every record assembled by process_app satisfies this. -/
def wfKV (k : Str) : Value → Bool
  | .str _ => !(k == s2l "dependencies") && !(k == s2l "codesign_info")
  | .deps _ => k == s2l "dependencies"
  | .signs _ => k == s2l "codesign_info"

/-- Well-typedness of a whole record. -/
def wfMeta (m : Meta) : Bool :=
  m.all fun kv => wfKV kv.1 kv.2

/-- Well-typedness of a record collection. -/
def wfMetas (rs : List Meta) : Bool := rs.all wfMeta

example :
    json_dumps compactStyle [[(s2l "app", .str (s2l "/A.app")), (s2l "weird", .str (s2l "x"))]] =
      s2l "[\x7b\"app\": \"/A.app\", \"weird\": \"x\"\x7d]" := by decide
example :
    json_dumps indentStyle [[(s2l "app", .str (s2l "/A.app")), (s2l "weird", .str (s2l "x"))]] =
      s2l "[\n    \x7b\n        \"app\": \"/A.app\",\n        \"weird\": \"x\"\n    \x7d\n]" := by
  decide
example :
    json_dumps indentStyle [[(s2l "dependencies", .deps [.raw (s2l "z")])]] =
      s2l "[\n    \x7b\n        \"dependencies\": [\n            \x7b\n                \"raw\": \"z\"\n            \x7d\n        ]\n    \x7d\n]" := by
  decide
example : json_dumps compactStyle [] = s2l "[]" := by decide
example :
    json_loads (json_dumps compactStyle [[(s2l "dependencies",
      .deps [.raw (s2l "z"), .structured (s2l "/u") (s2l "1.0") (s2l "2") true]),
      (s2l "codesign_info", .signs [⟨s2l "Authority", s2l "Apple Inc."⟩])]]) =
    some [[(s2l "dependencies",
      .deps [.raw (s2l "z"), .structured (s2l "/u") (s2l "1.0") (s2l "2") true]),
      (s2l "codesign_info", .signs [⟨s2l "Authority", s2l "Apple Inc."⟩])]] := by decide
example :
    json_loads (json_dumps indentStyle [[(s2l "a", .str (s2l "x"))], [], [(s2l "codesign_info", .signs [])]]) =
      some [[(s2l "a", .str (s2l "x"))], [], [(s2l "codesign_info", .signs [])]] := by decide

/-!  Generic helper lemmas. -/

/-- Soundness of literal consumption. -/
theorem dropLit_sound : ∀ (lit s r : Str), dropLit lit s = some r → s = lit ++ r
  | [], s, r, h => by simpa [dropLit] using h
  | _ :: _, [], _, h => by simp [dropLit] at h
  | c :: cs, d :: ds, r, h => by
    simp only [dropLit] at h
    by_cases hcd : c = d
    · simp only [if_pos hcd] at h
      have := dropLit_sound cs ds r h
      simp [hcd, this]
    · simp [if_neg hcd] at h

/-- Completeness of literal consumption. -/
theorem dropLit_append : ∀ (lit r : Str), dropLit lit (lit ++ r) = some r
  | [], r => rfl
  | c :: cs, r => by simp [dropLit, dropLit_append cs r]

/-- str.startswith characterised by concatenation. -/
theorem strStartsWith_iff (s lit : Str) :
    strStartsWith s lit = true ↔ ∃ r, s = lit ++ r := by
  unfold strStartsWith
  constructor
  · intro h
    cases hd : dropLit lit s with
    | none => rw [hd] at h; simp [Option.isSome] at h
    | some r => exact ⟨r, dropLit_sound lit s r hd⟩
  · rintro ⟨r, rfl⟩
    rw [dropLit_append]
    rfl

/-- Length of a filterMap equals the number of elements the function
keeps. -/
theorem filterMap_length_eq_filter {α β : Type} (f : α → Option β) :
    ∀ l : List α, (l.filterMap f).length = (l.filter (fun a => (f a).isSome)).length := by
  intro l
  induction l with
  | nil => rfl
  | cons a l ih =>
    cases h : f a with
    | none => simp [List.filterMap_cons, List.filter_cons, h, ih]
    | some b => simp [List.filterMap_cons, List.filter_cons, h, ih]

/-!  Claim C1.  The classifier tests for a space character in the
stripped listing, not for token multiplicity: a listing whose two
tokens are separated by a tab is returned verbatim. -/

/-- Environment whose lipo reports two tab-separated slices. -/
def envC1X : Env :=
  ⟨fun _ => false, fun _ => false, fun _ _ => none, fun _ => some (s2l "arm64\tx86_64")⟩

/-- C1 counterexample: a lipo listing with two whitespace-separated
architecture tokens (separated by a tab) is not classified Universal —
the classifier only recognises the space character, so the claimed
"more than one whitespace-separated token implies Universal" fails. -/
theorem claim_C1_counterexample :
    (pyTokens (pyStrip (run_command envC1X [s2l "lipo", s2l "-archs", s2l "/b"]))).length = 2
    ∧ get_architecture envC1X (s2l "/b") ≠ s2l "Universal" := by decide

/-- C1 amended: for every listing returned by the tool gateway, the
empty stripped listing classifies as N/A; a stripped listing containing
a space character (equivalently, more than one space-separated token)
classifies as Universal regardless of the tokens; a space-free stripped
listing is mapped arm64 to Apple Silicon, x86_64 to Intel [64-bit],
i386 to Intel [32-bit], anything else verbatim. -/
theorem claim_C1_amended (env : Env) (binaryPath : Str) (out : Str)
    (hout : out = pyStrip (run_command env [s2l "lipo", s2l "-archs", binaryPath])) :
    (out = [] → get_architecture env binaryPath = s2l "N/A")
    ∧ (' ' ∈ out → get_architecture env binaryPath = s2l "Universal")
    ∧ (' ' ∉ out → out ≠ [] →
        (out = s2l "arm64" → get_architecture env binaryPath = s2l "Apple Silicon")
        ∧ (out = s2l "x86_64" → get_architecture env binaryPath = s2l "Intel [64-bit]")
        ∧ (out = s2l "i386" → get_architecture env binaryPath = s2l "Intel [32-bit]")
        ∧ (out ≠ s2l "arm64" → out ≠ s2l "x86_64" → out ≠ s2l "i386" →
            get_architecture env binaryPath = out)) := by
  unfold get_architecture
  rw [← hout]
  refine ⟨?_, ?_, ?_⟩
  · intro h; simp [archOfListing, h]
  · intro h
    have hne : ¬ out.isEmpty := by
      cases out with
      | nil => simp at h
      | cons a l => simp
    simp [archOfListing, hne, h]
  · intro hsp hne
    have hne2 : ¬ out.isEmpty := by
      cases out with
      | nil => exact absurd rfl hne
      | cons a l => simp
    refine ⟨?_, ?_, ?_, ?_⟩
    · intro h; rw [h]; decide
    · intro h; rw [h]; decide
    · intro h; rw [h]; decide
    · intro h1 h2 h3
      simp [archOfListing, hne2, hsp, h1, h2, h3]

/-- Environment whose lipo reports a single arm64 slice. -/
def envC1W : Env :=
  ⟨fun _ => false, fun _ => false, fun _ _ => none, fun _ => some (s2l "arm64")⟩

/-- C1 witness: the amended classifier claim at a concrete single-token
listing. -/
theorem claim_C1_witness : get_architecture envC1W (s2l "/b") = s2l "Apple Silicon" := by
  have h := claim_C1_amended envC1W (s2l "/b") (s2l "arm64") (by decide)
  exact (h.2.2 (by decide) (by decide)).1 rfl

/-!  Claim C9: the tool gateway returns the decoded text on success and
the empty string on any execution failure; the translation is a total
function, there is no exceptional exit. -/

/-- C9: run_command forwards the decoded output of a successful
invocation and collapses every failure to the empty string. -/
theorem claim_C9 (env : Env) (cmd : List Str) :
    (∀ out, env.exec cmd = some out → run_command env cmd = out)
    ∧ (env.exec cmd = none → run_command env cmd = []) := by
  constructor
  · intro out h; simp [run_command, h]
  · intro h; simp [run_command, h]

/-- Environment whose every invocation succeeds with fixed text. -/
def envC9Ok : Env := ⟨fun _ => false, fun _ => false, fun _ _ => none, fun _ => some (s2l "hello")⟩

/-- Environment whose every invocation raises. -/
def envC9Fail : Env := ⟨fun _ => false, fun _ => false, fun _ _ => none, fun _ => none⟩

/-- C9 witness: both branches at concrete environments. -/
theorem claim_C9_witness :
    run_command envC9Ok [s2l "lipo"] = s2l "hello" ∧ run_command envC9Fail [s2l "lipo"] = [] :=
  ⟨(claim_C9 envC9Ok [s2l "lipo"]).1 (s2l "hello") rfl,
   (claim_C9 envC9Fail [s2l "lipo"]).2 rfl⟩

/-!  Claim C8.  The version derivation uses Python `or`, which falls
through not only on a missing short-version key but also on a present
but empty (falsy) value — the claim as stated fails there. -/

/-- Descriptor mapping with an empty short version string and a build
version. -/
def infoC8X : Str → Option Str := fun k =>
  if k = kShortVersion then some [] else if k = kBuildVersion then some (s2l "1.0") else none

/-- C8 counterexample: the short version string is present (the empty
string), yet the version field is the build version, not the short
version string. -/
theorem claim_C8_counterexample :
    infoC8X kShortVersion = some [] ∧ bundleVersion infoC8X = s2l "1.0"
    ∧ s2l "1.0" ≠ ([] : Str) := by decide

/-- C8 amended: the version field equals the short version string when
that key is present and non-empty; when it is absent or present but
empty, the version falls back to the build version, and to N/A when
the build version is also absent.  The minimum-OS field equals the
declared minimum OS string, or N/A when absent (unchanged). -/
theorem claim_C8_amended (info : Str → Option Str) :
    (∀ v, info kShortVersion = some v → ¬ v.isEmpty → bundleVersion info = v)
    ∧ ((info kShortVersion = none ∨ info kShortVersion = some []) →
        (∀ w, info kBuildVersion = some w → bundleVersion info = w)
        ∧ (info kBuildVersion = none → bundleVersion info = s2l "N/A"))
    ∧ (∀ mv, info kMinSystem = some mv → bundleMinOS info = mv)
    ∧ (info kMinSystem = none → bundleMinOS info = s2l "N/A") := by
  refine ⟨?_, ?_, ?_, ?_⟩
  · intro v h hne; simp [bundleVersion, h, hne]
  · intro h
    constructor
    · intro w hw
      rcases h with h | h <;> simp [bundleVersion, h, hw]
    · intro hb
      rcases h with h | h <;> simp [bundleVersion, h, hb]
  · intro mv h; simp [bundleMinOS, h]
  · intro h; simp [bundleMinOS, h]

/-- Descriptor mapping with a short version and a minimum OS. -/
def infoC8W : Str → Option Str := fun k =>
  if k = kShortVersion then some (s2l "2.1")
  else if k = kMinSystem then some (s2l "11.0") else none

/-- C8 witness: the amended derivation at a concrete descriptor. -/
theorem claim_C8_witness :
    bundleVersion infoC8W = s2l "2.1" ∧ bundleMinOS infoC8W = s2l "11.0" :=
  ⟨(claim_C8_amended infoC8W).1 (s2l "2.1") (by decide) (by decide),
   (claim_C8_amended infoC8W).2.2.1 (s2l "11.0") (by decide)⟩

/-!  Claim C4: the signing-info parser. -/

/-- The signing loop is the filterMap of its per-line body. -/
theorem csLoop_eq (ls : List Str) : ∀ acc, csLoop acc ls = acc ++ ls.filterMap factOfLine := by
  induction ls with
  | nil => intro acc; simp [csLoop]
  | cons l ls ih =>
    intro acc
    cases h : factOfLine l with
    | none => simp [csLoop, h, ih]
    | some f => simp [csLoop, h, ih]

/-- Splitting at the first equals sign of a text built around one. -/
theorem splitEq1_concrete (pre rest : Str) (hpre : ∀ c ∈ pre, c ≠ '=') :
    splitEq1 (pre ++ '=' :: rest) = [pre, rest] := by
  have hp : ∀ c ∈ pre, (fun c => decide ¬(c = '=')) c = true := by
    intro c hc; simpa using hpre c hc
  unfold splitEq1
  rw [List.takeWhile_append_of_pos hp, List.dropWhile_append_of_pos hp]
  simp [List.takeWhile_cons, List.dropWhile_cons]

/-- factOfLine on an Authority line. -/
theorem factOfLine_authority (l : Str)
    (h : strStartsWith (pyStrip l) (s2l "Authority=") = true) :
    factOfLine l = some ⟨s2l "Authority", (pyStrip l).drop 10⟩ := by
  obtain ⟨r, hr⟩ := (strStartsWith_iff _ _).mp h
  have hr2 : pyStrip l = s2l "Authority" ++ '=' :: r := by rw [hr]; rfl
  unfold factOfLine factOfStripped
  rw [h]
  simp only [if_true]
  rw [hr2, splitEq1_concrete (s2l "Authority") r (by decide)]
  have : (s2l "Authority" ++ '=' :: r).drop 10 = r := by rfl
  simp [this]

/-- factOfLine on a TeamIdentifier line. -/
theorem factOfLine_team (l : Str)
    (h : strStartsWith (pyStrip l) (s2l "TeamIdentifier=") = true) :
    factOfLine l = some ⟨s2l "TeamIdentifier", (pyStrip l).drop 15⟩ := by
  obtain ⟨r, hr⟩ := (strStartsWith_iff _ _).mp h
  have hr2 : pyStrip l = s2l "TeamIdentifier" ++ '=' :: r := by rw [hr]; rfl
  have hna : strStartsWith (pyStrip l) (s2l "Authority=") = false := by rw [hr2]; rfl
  unfold factOfLine factOfStripped
  rw [hna, h]
  simp only [Bool.false_eq_true, if_false, if_true]
  rw [hr2, splitEq1_concrete (s2l "TeamIdentifier") r (by decide)]
  have : (s2l "TeamIdentifier" ++ '=' :: r).drop 15 = r := by rfl
  simp [this]

/-- factOfLine on a Signature line. -/
theorem factOfLine_signature (l : Str)
    (h : strStartsWith (pyStrip l) (s2l "Signature=") = true) :
    factOfLine l = some ⟨s2l "Signature", (pyStrip l).drop 10⟩ := by
  obtain ⟨r, hr⟩ := (strStartsWith_iff _ _).mp h
  have hr2 : pyStrip l = s2l "Signature" ++ '=' :: r := by rw [hr]; rfl
  have hna : strStartsWith (pyStrip l) (s2l "Authority=") = false := by rw [hr2]; rfl
  have hnt : strStartsWith (pyStrip l) (s2l "TeamIdentifier=") = false := by rw [hr2]; rfl
  unfold factOfLine factOfStripped
  rw [hna, hnt, h]
  simp only [Bool.false_eq_true, if_false, if_true]
  rw [hr2, splitEq1_concrete (s2l "Signature") r (by decide)]
  have : (s2l "Signature" ++ '=' :: r).drop 10 = r := by rfl
  simp [this]

/-- C4: the signing parser processes the dump line by line in order, as
the filterMap of its per-line body; exactly the three prefixes are
recognised, each fact value is the text after the first equals sign of
the stripped line; other lines contribute nothing, and a dump with no
recognised line yields the empty sequence. -/
theorem claim_C4 (env : Env) (bundle : Str) :
    get_codesign_info env bundle =
      (pySplitlines (run_command env [s2l "codesign", s2l "-dv", s2l "--verbose=4", bundle])).filterMap
        factOfLine
    ∧ (∀ l, strStartsWith (pyStrip l) (s2l "Authority=") = true →
        factOfLine l = some ⟨s2l "Authority", (pyStrip l).drop 10⟩)
    ∧ (∀ l, strStartsWith (pyStrip l) (s2l "TeamIdentifier=") = true →
        factOfLine l = some ⟨s2l "TeamIdentifier", (pyStrip l).drop 15⟩)
    ∧ (∀ l, strStartsWith (pyStrip l) (s2l "Signature=") = true →
        factOfLine l = some ⟨s2l "Signature", (pyStrip l).drop 10⟩)
    ∧ (∀ l f, factOfLine l = some f →
        f.value = ((pyStrip l).dropWhile (fun c => ¬(c = '='))).drop 1)
    ∧ (∀ l, strStartsWith (pyStrip l) (s2l "Authority=") = false →
        strStartsWith (pyStrip l) (s2l "TeamIdentifier=") = false →
        strStartsWith (pyStrip l) (s2l "Signature=") = false → factOfLine l = none)
    ∧ ((∀ l ∈ pySplitlines (run_command env [s2l "codesign", s2l "-dv", s2l "--verbose=4", bundle]),
          factOfLine l = none) →
        get_codesign_info env bundle = []) := by
  have hmain : get_codesign_info env bundle =
      (pySplitlines (run_command env [s2l "codesign", s2l "-dv", s2l "--verbose=4", bundle])).filterMap
        factOfLine := by
    unfold get_codesign_info factsOfText
    rw [csLoop_eq]
    simp
  refine ⟨hmain, factOfLine_authority, factOfLine_team, factOfLine_signature, ?_, ?_, ?_⟩
  · intro l f h
    by_cases ha : strStartsWith (pyStrip l) (s2l "Authority=") = true
    · obtain ⟨r, hr⟩ := (strStartsWith_iff _ _).mp ha
      have hr2 : pyStrip l = s2l "Authority" ++ '=' :: r := by rw [hr]; rfl
      rw [factOfLine_authority l ha] at h
      cases h
      rw [hr2]
      rfl
    · by_cases ht : strStartsWith (pyStrip l) (s2l "TeamIdentifier=") = true
      · obtain ⟨r, hr⟩ := (strStartsWith_iff _ _).mp ht
        have hr2 : pyStrip l = s2l "TeamIdentifier" ++ '=' :: r := by rw [hr]; rfl
        rw [factOfLine_team l ht] at h
        cases h
        rw [hr2]
        rfl
      · by_cases hs : strStartsWith (pyStrip l) (s2l "Signature=") = true
        · obtain ⟨r, hr⟩ := (strStartsWith_iff _ _).mp hs
          have hr2 : pyStrip l = s2l "Signature" ++ '=' :: r := by rw [hr]; rfl
          rw [factOfLine_signature l hs] at h
          cases h
          rw [hr2]
          rfl
        · have hnone : factOfLine l = none := by
            unfold factOfLine factOfStripped
            rw [if_neg ha, if_neg ht, if_neg hs]
          rw [hnone] at h
          cases h
  · intro l ha ht hs
    unfold factOfLine factOfStripped
    rw [ha, ht, hs]
    simp
  · intro h
    rw [hmain, List.filterMap_eq_nil_iff.mpr h]

/-- Environment whose codesign dump holds one Authority line. -/
def envC4W : Env :=
  ⟨fun _ => false, fun _ => false, fun _ _ => none,
   fun _ => some (s2l "junk\nAuthority=Apple Inc.\n")⟩

/-- C4 witness: the parser claim at a concrete dump with one Authority
line. -/
theorem claim_C4_witness :
    factOfLine (s2l "Authority=Apple Inc.") = some ⟨s2l "Authority", s2l "Apple Inc."⟩
    ∧ get_codesign_info envC4W (s2l "/A.app") = [⟨s2l "Authority", s2l "Apple Inc."⟩] := by
  constructor
  · have h := (claim_C4 envC4W (s2l "/A.app")).2.1 (s2l "Authority=Apple Inc.") (by decide)
    rw [h]
    decide
  · have h := (claim_C4 envC4W (s2l "/A.app")).1
    rw [h]
    decide

/-!  Claim C3: the SDK-version extractor resolution order. -/

/-- C3: the four SDK matchers are tried in order with the first match
winning — in particular a standalone sdk line beats the
build-version-block value — and the empty string is returned when no
matcher succeeds. -/
theorem claim_C3 (env : Env) (binaryPath : Str) (txt : Str)
    (htxt : txt = run_command env [s2l "otool", s2l "-l", binaryPath]) :
    (∀ v, sdkStandalone txt = some v → get_sdk_version env binaryPath = v)
    ∧ (sdkStandalone txt = none →
        ∀ v, sdkAfterLit (s2l "cmd LC_BUILD_VERSION") txt = some v →
          get_sdk_version env binaryPath = v)
    ∧ (sdkStandalone txt = none →
        sdkAfterLit (s2l "cmd LC_BUILD_VERSION") txt = none →
        ∀ v, sdkAfterLit (s2l "cmd LC_VERSION_MIN_MACOSX") txt = some v →
          get_sdk_version env binaryPath = v)
    ∧ (sdkStandalone txt = none →
        sdkAfterLit (s2l "cmd LC_BUILD_VERSION") txt = none →
        sdkAfterLit (s2l "cmd LC_VERSION_MIN_MACOSX") txt = none →
        ∀ v, searchSdkPat txt = some v → get_sdk_version env binaryPath = v)
    ∧ (sdkStandalone txt = none →
        sdkAfterLit (s2l "cmd LC_BUILD_VERSION") txt = none →
        sdkAfterLit (s2l "cmd LC_VERSION_MIN_MACOSX") txt = none →
        searchSdkPat txt = none → get_sdk_version env binaryPath = []) := by
  unfold get_sdk_version sdkFromText
  rw [← htxt]
  refine ⟨?_, ?_, ?_, ?_, ?_⟩
  · intro v h; rw [h]
  · intro h1 v h; rw [h1, h]
  · intro h1 h2 v h; rw [h1, h2, h]
  · intro h1 h2 h3 v h; rw [h1, h2, h3, h]
  · intro h1 h2 h3 h4; rw [h1, h2, h3, h4]

/-- Environment whose otool dump holds both a standalone sdk line and a
build-version block with a different inline sdk value. -/
def envC3W : Env :=
  ⟨fun _ => false, fun _ => false, fun _ _ => none,
   fun _ => some (s2l "xcmd LC_BUILD_VERSION q sdk 13.0\nsdk 14.0")⟩

/-- C3 witness: with both a standalone sdk line (value 14.0) and a
build-version-block sdk value (13.0) present, the standalone value is
returned. -/
theorem claim_C3_witness :
    get_sdk_version envC3W (s2l "/b") = s2l "14.0"
    ∧ sdkAfterLit (s2l "cmd LC_BUILD_VERSION")
        (run_command envC3W [s2l "otool", s2l "-l", s2l "/b"]) = some (s2l "13.0") := by
  constructor
  · exact (claim_C3 envC3W (s2l "/b") _ rfl).1 (s2l "14.0") (by decide)
  · decide

/-!  Claims C5 and C6: facet gating, omission, and the result-collection
invariant. -/

/-- The keys of an assembled record: the four base fields followed by
each optional facet key exactly under its gating condition. -/
theorem assembleMeta_keys (env : Env) (args : Args) (p : Str) :
    metaKeys (assembleMeta env args p) =
      [s2l "app", s2l "version", s2l "minimum_macos", s2l "architecture"]
      ++ (if args.uuid && env.isFile (binPathOf env p) then [s2l "uuid"] else [])
      ++ (if args.deps && env.isFile (binPathOf env p) then [s2l "dependencies"] else [])
      ++ (if args.sdk && env.isFile (binPathOf env p) then [s2l "sdk_version"] else [])
      ++ (if args.codesign then [s2l "codesign_info"] else []) := by
  simp only [assembleMeta]
  by_cases hu : (args.uuid && env.isFile (binPathOf env p)) = true <;>
    by_cases hd : (args.deps && env.isFile (binPathOf env p)) = true <;>
      by_cases hs : (args.sdk && env.isFile (binPathOf env p)) = true <;>
        by_cases hc : args.codesign = true <;>
          simp [hu, hd, hs, hc, metaKeys]

/-- C5: in every record returned by process_app, the uuid, dependencies
and sdk_version fields are present exactly when their flag is requested
and the main executable file exists; codesign_info is present exactly
when its flag is requested; and with no optional facet requested, the
record keys are exactly app, version, minimum_macos, architecture (in
that order) — unrequested fields are absent, never null. -/
theorem claim_C5 (env : Env) (args : Args) (path : Str) (m : Meta) (ds : List Str)
    (h : process_app env args path = (some m, ds)) :
    ((s2l "uuid" ∈ metaKeys m) ↔
      (args.uuid = true ∧ env.isFile (binPathOf env (rstripSlash path)) = true))
    ∧ ((s2l "dependencies" ∈ metaKeys m) ↔
      (args.deps = true ∧ env.isFile (binPathOf env (rstripSlash path)) = true))
    ∧ ((s2l "sdk_version" ∈ metaKeys m) ↔
      (args.sdk = true ∧ env.isFile (binPathOf env (rstripSlash path)) = true))
    ∧ ((s2l "codesign_info" ∈ metaKeys m) ↔ args.codesign = true)
    ∧ (args.uuid = false → args.deps = false → args.sdk = false → args.codesign = false →
        metaKeys m = [s2l "app", s2l "version", s2l "minimum_macos", s2l "architecture"]) := by
  simp only [process_app] at h
  split at h
  case isFalse => simp at h
  case isTrue hcond =>
    split at h
    case isFalse => simp at h
    case isTrue hfile =>
      have hm : m = assembleMeta env args (rstripSlash path) := by
        have := congrArg Prod.fst h
        simp at this
        exact this.symm
      rw [hm, assembleMeta_keys]
      cases hu : args.uuid <;> cases hd : args.deps <;> cases hs : args.sdk <;>
        cases hc : args.codesign <;>
          cases hb : env.isFile (binPathOf env (rstripSlash path)) <;>
            simp [hu, hd, hs, hc, hb] <;> decide

/-- C6: a record enters the collection only for a directory path
bearing the bundle suffix whose descriptor file exists; a bundle
directory missing its descriptor contributes no record, produces
exactly one diagnostic line, and the remaining bundles are processed
unchanged. -/
theorem claim_C6 (env : Env) (args : Args) :
    (∀ path m ds, process_app env args path = (some m, ds) →
        env.isDir (rstripSlash path) = true
        ∧ strEndsWith (rstripSlash path) (s2l ".app") = true
        ∧ env.isFile (plistPathOf (rstripSlash path)) = true)
    ∧ (∀ p ps, env.isDir (rstripSlash p) = true →
        strEndsWith (rstripSlash p) (s2l ".app") = true →
        env.isFile (plistPathOf (rstripSlash p)) = false →
        (gather env args (p :: ps)).1 = (gather env args ps).1
        ∧ (gather env args (p :: ps)).2 =
            warnLine (plistPathOf (rstripSlash p)) (rstripSlash p) :: (gather env args ps).2) := by
  constructor
  · intro path m ds h
    simp only [process_app] at h
    split at h
    case isFalse => simp at h
    case isTrue hcond =>
      obtain ⟨hdir, hend⟩ := Bool.and_eq_true_iff.mp hcond
      split at h
      case isFalse => simp at h
      case isTrue hfile => exact ⟨hdir, hend, hfile⟩
  · intro p ps hdir hend hfile
    have hp : process_app env args p =
        (none, [warnLine (plistPathOf (rstripSlash p)) (rstripSlash p)]) := by
      simp [process_app, hdir, hend, hfile]
    constructor <;> simp [gather, hp]

/-- Environment with one complete bundle at /A.app and one bundle at
/B.app whose descriptor is missing. -/
def envC56W : Env :=
  ⟨fun p => p = s2l "/A.app" || p = s2l "/B.app",
   fun p => p = s2l "/A.app/Contents/Info.plist",
   fun _ _ => none, fun _ => none⟩

/-- No optional facet requested. -/
def args0 : Args := ⟨false, false, false, false⟩

/-- The record assembled for /A.app under envC56W and args0. -/
def metaC5W : Meta :=
  [(s2l "app", .str (s2l "/A.app")), (s2l "version", .str (s2l "N/A")),
   (s2l "minimum_macos", .str (s2l "N/A")), (s2l "architecture", .str (s2l "N/A"))]

/-- C5 witness: with zero optional facets requested, the concrete
record for /A.app carries exactly the four base keys. -/
theorem claim_C5_witness :
    metaKeys metaC5W = [s2l "app", s2l "version", s2l "minimum_macos", s2l "architecture"] :=
  (claim_C5 envC56W args0 (s2l "/A.app") metaC5W [] (by decide)).2.2.2.2 rfl rfl rfl rfl

/-- C6 witness: the concrete record for /A.app satisfies the
preconditions of collection membership, and the descriptor-less /B.app
is skipped with exactly one diagnostic while /A.app is still
processed. -/
theorem claim_C6_witness :
    (envC56W.isDir (rstripSlash (s2l "/A.app")) = true
      ∧ strEndsWith (rstripSlash (s2l "/A.app")) (s2l ".app") = true
      ∧ envC56W.isFile (plistPathOf (rstripSlash (s2l "/A.app"))) = true)
    ∧ (gather envC56W args0 [s2l "/B.app", s2l "/A.app"]).1 =
        (gather envC56W args0 [s2l "/A.app"]).1
    ∧ (gather envC56W args0 [s2l "/B.app", s2l "/A.app"]).2 =
        warnLine (plistPathOf (rstripSlash (s2l "/B.app"))) (rstripSlash (s2l "/B.app")) ::
          (gather envC56W args0 [s2l "/A.app"]).2 := by
  refine ⟨?_, ?_⟩
  · exact (claim_C6 envC56W args0).1 (s2l "/A.app") metaC5W [] (by decide)
  · exact (claim_C6 envC56W args0).2 (s2l "/B.app") [s2l "/A.app"]
      (by decide) (by decide) (by decide)


/-!  Claim C2 infrastructure: evaluating the dependency matcher on a
line of the canonical shape, and characterising the lazy leading
group. -/

theorem matchDepTail_unfold (u : Str) :
    matchDepTail (s2l " (compatibility version " ++ u) =
      (match depGroup2 (' ' :: u) with
       | none => none
       | some (g2, t7) => depStage2 g2 t7) := rfl

theorem depStage2_unfold (g2 u : Str) :
    depStage2 g2 (',' :: (s2l " current version " ++ u)) =
      depStage2Tail g2 (u.dropWhile isPySpace) := rfl

theorem depStage3_weak (g2 g3 : Str) :
    depStage3 g2 g3 (',' :: s2l " weak)") = some (g2, g3, true) := rfl

theorem depStage3_plain (g2 g3 : Str) :
    depStage3 g2 g3 (')' :: []) = some (g2, g3, false) := rfl

theorem not_space_of_digitDot (c : Char) (h : isDigitDot c = true) : isPySpace c = false := by
  by_contra hw
  simp only [Bool.not_eq_false] at hw
  simp only [isDigitDot, Bool.or_eq_true, Bool.and_eq_true, decide_eq_true_eq] at h
  simp only [isPySpace, Bool.or_eq_true, Bool.and_eq_true, decide_eq_true_eq] at hw
  rcases h with ⟨h1, h2⟩ | rfl
  · simp only [or_assoc] at hw
    rcases hw with rfl | rfl | rfl | rfl | rfl | rfl | rfl | rfl | rfl | rfl | rfl | rfl | rfl |
      ⟨hw1, hw2⟩ | rfl | rfl | rfl | rfl | rfl
    all_goals first
      | exact absurd h1 (by decide)
      | exact absurd h2 (by decide)
      | exact absurd (le_trans hw1 h2) (by decide)
  · exact absurd hw (by decide)

theorem getLastD_mem (l : List Char) (h : l ≠ []) : l.getLastD ' ' ∈ l := by
  cases l with
  | nil => exact absurd rfl h
  | cons a as =>
    rw [List.getLastD_eq_getLast?, List.getLast?_eq_getLast (a :: as) (by simp)]
    simp [List.getLast_mem]

theorem dropWhile_head_prop {p : Char → Bool} :
    ∀ (l : List Char) (c : Char) (r : List Char),
      l.dropWhile p = c :: r → p c = false ∧ c ∈ l
  | [], c, r, h => by simp [List.dropWhile] at h
  | a :: l, c, r, h => by
    by_cases ha : p a = true
    · rw [List.dropWhile_cons, if_pos ha] at h
      obtain ⟨h1, h2⟩ := dropWhile_head_prop l c r h
      exact ⟨h1, List.mem_cons_of_mem a h2⟩
    · rw [List.dropWhile_cons, if_neg ha] at h
      injection h with h1 h2
      subst h1
      exact ⟨by simpa using ha, List.mem_cons_self a l⟩

theorem depGroup2_canonical (x rest : Str) (hx : x ≠ []) (hc : ',' ∉ x)
    (hh : ∀ c, x.head? = some c → isPySpace c = false) :
    depGroup2 (' ' :: (x ++ ',' :: rest)) = some (x, ',' :: rest) := by
  cases x with
  | nil => exact absurd rfl hx
  | cons x0 xs =>
    have h0 : isPySpace x0 = false := hh x0 rfl
    have hx0 : ¬(x0 = ',') := fun e => hc (by simp [e])
    have hxs : ∀ c ∈ x0 :: xs, (fun d => decide ¬(d = ',')) c = true := by
      intro c hcm
      simp only [decide_eq_true_eq]
      intro e
      exact hc (e ▸ hcm)
    have hsp : isPySpace ' ' = true := by decide
    simp only [depGroup2, List.cons_append, List.takeWhile_cons, List.dropWhile_cons, hsp, h0,
      if_true, Bool.false_eq_true, if_false, List.isEmpty_cons]
    rw [if_neg hx0]
    have hdx : (decide ¬(x0 = ',')) = true := by simp [hx0]
    have hxs2 : ∀ c ∈ xs, (fun d => decide ¬(d = ',')) c = true := fun c hcm =>
      hxs c (List.mem_cons_of_mem x0 hcm)
    rw [List.takeWhile_append_of_pos hxs2, List.dropWhile_append_of_pos hxs2]
    simp [hdx, List.takeWhile_cons, List.dropWhile_cons]

theorem span_dd (y : Str) (c : Char) (R : Str) (hyd : ∀ d ∈ y, isDigitDot d = true)
    (hc : isDigitDot c = false) :
    (y ++ c :: R).takeWhile isDigitDot = y ∧ (y ++ c :: R).dropWhile isDigitDot = c :: R := by
  constructor
  · rw [List.takeWhile_append_of_pos hyd]
    simp [List.takeWhile_cons, hc]
  · rw [List.dropWhile_append_of_pos hyd]
    simp [List.dropWhile_cons, hc]

theorem matchDepTail_canonical (x y : Str) (w : Bool)
    (hx : x ≠ []) (hxc : ',' ∉ x) (hxh : ∀ c, x.head? = some c → isPySpace c = false)
    (hy : y ≠ []) (hyd : ∀ d ∈ y, isDigitDot d = true) :
    matchDepTail (s2l " (compatibility version " ++
        (x ++ ',' :: (s2l " current version " ++
          (y ++ (if w then ',' :: s2l " weak)" else ')' :: []))))) = some (x, y, w) := by
  rw [matchDepTail_unfold,
    depGroup2_canonical x (s2l " current version " ++
      (y ++ (if w then ',' :: s2l " weak)" else ')' :: []))) hx hxc hxh]
  show depStage2 x (',' :: (s2l " current version " ++
      (y ++ (if w then ',' :: s2l " weak)" else ')' :: [])))) = some (x, y, w)
  rw [depStage2_unfold]
  obtain ⟨y0, ys, rfl⟩ : ∃ y0 ys, y = y0 :: ys := by
    cases y with
    | nil => exact absurd rfl hy
    | cons y0 ys => exact ⟨y0, ys, rfl⟩
  have h0 : isPySpace y0 = false := not_space_of_digitDot y0 (hyd y0 (List.mem_cons_self _ _))
  have hdw : ((y0 :: ys) ++ (if w then ',' :: s2l " weak)" else ')' :: [])).dropWhile isPySpace =
      (y0 :: ys) ++ (if w then ',' :: s2l " weak)" else ')' :: []) := by
    simp [List.cons_append, List.dropWhile_cons, h0]
  rw [hdw]
  have hyE : (y0 :: ys).isEmpty = false := rfl
  cases w with
  | true =>
    rw [if_pos rfl]
    unfold depStage2Tail
    rw [(span_dd (y0 :: ys) ',' (s2l " weak)") hyd (by decide)).1,
      (span_dd (y0 :: ys) ',' (s2l " weak)") hyd (by decide)).2, hyE]
    simp only [Bool.false_eq_true, if_false]
    exact depStage3_weak x (y0 :: ys)
  | false =>
    rw [if_neg (by decide)]
    unfold depStage2Tail
    rw [(span_dd (y0 :: ys) ')' [] hyd (by decide)).1,
      (span_dd (y0 :: ys) ')' [] hyd (by decide)).2, hyE]
    simp only [Bool.false_eq_true, if_false]
    exact depStage3_plain x (y0 :: ys)

theorem matchDepTail_none_inert (s t : Str) (hpar : '(' ∉ s)
    (hnws : ∃ c ∈ s, isPySpace c = false) :
    matchDepTail (s ++ t) = none := by
  have hd : s.dropWhile isPySpace ≠ [] := by
    intro he
    obtain ⟨c, hcm, hcw⟩ := hnws
    have := List.dropWhile_eq_nil_iff.mp he c hcm
    rw [hcw] at this
    cases this
  obtain ⟨c, r, hcr⟩ : ∃ c r, s.dropWhile isPySpace = c :: r := by
    cases hE : s.dropWhile isPySpace with
    | nil => exact absurd hE hd
    | cons c r => exact ⟨c, r, rfl⟩
  obtain ⟨hcw, hcm⟩ := dropWhile_head_prop s c r hcr
  have hcp : ¬(c = '(') := fun e => hpar (e ▸ hcm)
  have hdw : (s ++ t).dropWhile isPySpace = c :: (r ++ t) := by
    rw [List.dropWhile_append]
    simp [hcr]
  cases hemp : ((s ++ t).takeWhile isPySpace).isEmpty with
  | true =>
    have hreq : reqWsPlus (s ++ t) = none := by simp [reqWsPlus, hemp]
    simp [matchDepTail, hreq]
  | false =>
    have hreq : reqWsPlus (s ++ t) = some (c :: (r ++ t)) := by
      simp [reqWsPlus, hemp, hdw]
    simp [matchDepTail, hreq, reqChar, hcp]

theorem depMatchGo_extend (x y : Str) (w : Bool) :
    ∀ (p acc t : Str), '(' ∉ p → '\n' ∉ p →
      (∀ c, p.getLast? = some c → isPySpace c = false) →
      matchDepTail t = some (x, y, w) →
      depMatchGo acc (p ++ t) = some (acc.reverse ++ p, x, y, w)
  | [], acc, t, _, _, _, ht => by
    rw [List.nil_append]
    cases t with
    | nil =>
      rw [show matchDepTail [] = (none : Option (Str × Str × Bool)) from rfl] at ht
      cases ht
    | cons c r =>
      simp only [depMatchGo, ht, depMatchStep]
      simp
  | c :: p2, acc, t, hpar, hnl, hlast, ht => by
    have hlast2 : (c :: p2).getLast? = some ((c :: p2).getLast (by simp)) :=
      List.getLast?_eq_getLast _ _
    have hlw : isPySpace ((c :: p2).getLast (by simp)) = false := hlast _ hlast2
    have hmem : (c :: p2).getLast (by simp) ∈ c :: p2 := List.getLast_mem _
    have hnone : matchDepTail ((c :: p2) ++ t) = none :=
      matchDepTail_none_inert _ t hpar ⟨_, hmem, hlw⟩
    rw [List.cons_append] at hnone
    have hcnl : ¬(c = '\n') := fun e => hnl (by simp [e])
    have hp2par : '(' ∉ p2 := fun hm => hpar (List.mem_cons_of_mem c hm)
    have hp2nl : '\n' ∉ p2 := fun hm => hnl (List.mem_cons_of_mem c hm)
    have hp2last : ∀ d, p2.getLast? = some d → isPySpace d = false := by
      intro d hd
      apply hlast
      cases p2 with
      | nil => cases hd
      | cons b l => rw [List.getLast?_cons_cons]; exact hd
    have ih := depMatchGo_extend x y w p2 (c :: acc) t hp2par hp2nl hp2last ht
    rw [List.cons_append]
    simp only [depMatchGo, hnone, depMatchStep]
    rw [if_neg hcnl, ih]
    simp

theorem depMatch_canonical (p x y : Str) (w : Bool) (hppar : '(' ∉ p) (hpnl : '\n' ∉ p)
    (hplast : ∀ c, p.getLast? = some c → isPySpace c = false)
    (hx : x ≠ []) (hxc : ',' ∉ x) (hxh : ∀ c, x.head? = some c → isPySpace c = false)
    (hy : y ≠ []) (hyd : ∀ d ∈ y, isDigitDot d = true) :
    depMatch (p ++ (s2l " (compatibility version " ++
        (x ++ ',' :: (s2l " current version " ++
          (y ++ (if w then ',' :: s2l " weak)" else ')' :: [])))))) = some (p, x, y, w) := by
  unfold depMatch
  rw [depMatchGo_extend x y w p [] _ hppar hpnl hplast
    (matchDepTail_canonical x y w hx hxc hxh hy hyd)]
  simp

/-- The dependency loop is the filterMap of its per-line body. -/
theorem depLoop_eq (ls : List Str) : ∀ acc, depLoop acc ls = acc ++ ls.filterMap depRecordOfLine := by
  induction ls with
  | nil => intro acc; simp [depLoop]
  | cons l ls ih =>
    intro acc
    cases h : depRecordOfLine l with
    | none => simp [depLoop, h, ih]
    | some d => simp [depLoop, h, ih]

/-- parse_dependencies processes exactly the lines after the first. -/
theorem depsOfText_eq (txt : Str) :
    depsOfText txt = ((pySplitlines txt).drop 1).filterMap depRecordOfLine := by
  unfold depsOfText
  by_cases h : 1 < (pySplitlines txt).length
  · rw [if_pos h, depLoop_eq]
    simp
  · rw [if_neg h]
    have hd : (pySplitlines txt).drop 1 = [] := by
      apply List.drop_eq_nil_of_le
      omega
    rw [hd, List.filterMap_nil]

/-- A line produces a record exactly when it is non-blank. -/
theorem depRecordOfLine_isSome (l : Str) :
    (depRecordOfLine l).isSome = !(pyStrip l).isEmpty := by
  by_cases h : (pyStrip l).isEmpty = true
  · simp [depRecordOfLine, h]
  · cases hm : depMatch (pyStrip l) with
    | none => simp [depRecordOfLine, h, hm]
    | some g =>
      obtain ⟨p, x, y, w⟩ := g
      simp [depRecordOfLine, h, hm]

/-- C2: parse_dependencies never records the first listing line and
preserves order — the records are exactly the per-line results over the
lines after the first; the record count equals the number of non-blank
lines after the first; a line of the canonical dependency shape matches
with weak true exactly when the weak marker is present; and every other
non-blank line yields exactly one raw record holding the stripped
line. -/
theorem claim_C2 (env : Env) (binaryPath : Str) :
    parse_dependencies env binaryPath =
      ((pySplitlines (run_command env [s2l "otool", s2l "-L", binaryPath])).drop 1).filterMap
        depRecordOfLine
    ∧ (parse_dependencies env binaryPath).length =
      (((pySplitlines (run_command env [s2l "otool", s2l "-L", binaryPath])).drop 1).filter
        (fun l => !(pyStrip l).isEmpty)).length
    ∧ (∀ p x y : Str, '(' ∉ p → '\n' ∉ p →
        (p.getLast?.all fun c => !(isPySpace c)) = true →
        x ≠ [] → ',' ∉ x → (x.head?.all fun c => !(isPySpace c)) = true →
        y ≠ [] → y.all isDigitDot = true →
        depMatch (p ++ (s2l " (compatibility version " ++
            (x ++ ',' :: (s2l " current version " ++ (y ++ ',' :: s2l " weak)"))))) =
          some (p, x, y, true)
        ∧ depMatch (p ++ (s2l " (compatibility version " ++
            (x ++ ',' :: (s2l " current version " ++ (y ++ ')' :: []))))) =
          some (p, x, y, false))
    ∧ (∀ l, ¬(pyStrip l).isEmpty = true → depMatch (pyStrip l) = none →
        depRecordOfLine l = some (.raw (pyStrip l)))
    ∧ (∀ l p x y w, ¬(pyStrip l).isEmpty = true → depMatch (pyStrip l) = some (p, x, y, w) →
        depRecordOfLine l = some (.structured p x y w)) := by
  refine ⟨?_, ?_, ?_, ?_, ?_⟩
  · unfold parse_dependencies
    exact depsOfText_eq _
  · unfold parse_dependencies
    rw [depsOfText_eq, filterMap_length_eq_filter]
    congr 1
    apply List.filter_congr
    intro l _
    exact depRecordOfLine_isSome l
  · intro p x y hpar hnl hpl hx hxc hxh hy hyd
    have hplast : ∀ c, p.getLast? = some c → isPySpace c = false := by
      intro c hc
      rw [hc] at hpl
      simpa using hpl
    have hxhead : ∀ c, x.head? = some c → isPySpace c = false := by
      intro c hc
      rw [hc] at hxh
      simpa using hxh
    have hydm : ∀ d ∈ y, isDigitDot d = true := List.all_eq_true.mp hyd
    constructor
    · have h := depMatch_canonical p x y true hpar hnl hplast hx hxc hxhead hy hydm
      rw [if_pos rfl] at h
      exact h
    · have h := depMatch_canonical p x y false hpar hnl hplast hx hxc hxhead hy hydm
      rw [if_neg (by decide)] at h
      exact h
  · intro l h1 h2
    simp [depRecordOfLine, h1, h2]
  · intro l p x y w h1 h2
    simp [depRecordOfLine, h1, h2]

/-- Environment whose otool -L output holds a self line, one structured
dependency, a blank line and one raw line. -/
def envC2W : Env :=
  ⟨fun _ => false, fun _ => false, fun _ _ => none,
   fun _ => some (s2l
     "/bin/x:\n\t/usr/lib/libz.dylib (compatibility version 1.0, current version 1.2.11)\n\n\tnot a dep line\n")⟩

/-- C2 witness: the canonical-shape conjunct at a concrete path and
versions (weak and non-weak), plus the record equation at a concrete
listing. -/
theorem claim_C2_witness :
    depMatch (s2l "/usr/lib/libz.dylib (compatibility version 1.0, current version 1.2.11, weak)") =
      some (s2l "/usr/lib/libz.dylib", s2l "1.0", s2l "1.2.11", true)
    ∧ parse_dependencies envC2W (s2l "/bin/x") =
      [Dep.structured (s2l "/usr/lib/libz.dylib") (s2l "1.0") (s2l "1.2.11") false,
       Dep.raw (s2l "not a dep line")] := by
  constructor
  · exact ((claim_C2 envC2W (s2l "/bin/x")).2.2.1 (s2l "/usr/lib/libz.dylib") (s2l "1.0")
      (s2l "1.2.11") (by decide) (by decide) (by decide) (by decide) (by decide) (by decide)
      (by decide) (by decide)).1
  · rw [(claim_C2 envC2W (s2l "/bin/x")).1]
    decide

/-!  Claim C10: what the matcher guarantees about its groups. -/

/-- The compatibility-version group never contains a comma. -/
theorem depGroup2_inv (t g2 t7 : Str) (h : depGroup2 t = some (g2, t7)) : ',' ∉ g2 := by
  simp only [depGroup2] at h
  by_cases h1 : ((t.takeWhile isPySpace).isEmpty = true)
  · rw [if_pos h1] at h
    exact Option.noConfusion h
  · rw [if_neg h1] at h
    cases hr : t.dropWhile isPySpace with
    | nil => rw [hr] at h; exact Option.noConfusion h
    | cons c rest =>
      rw [hr] at h
      dsimp only at h
      by_cases hc : c = ','
      · rw [if_pos hc] at h
        by_cases hw : 2 ≤ (t.takeWhile isPySpace).length
        · rw [if_pos hw] at h
          simp only [Option.some.injEq, Prod.mk.injEq] at h
          obtain ⟨hg, _⟩ := h
          subst hg
          intro hmem
          simp only [List.mem_singleton] at hmem
          have hne : t.takeWhile isPySpace ≠ [] := by
            intro he
            rw [he] at hw
            simp at hw
          have hmem2 := getLastD_mem (t.takeWhile isPySpace) hne
          have hsp := List.mem_takeWhile_imp hmem2
          rw [← hmem] at hsp
          exact absurd hsp (by decide)
        · rw [if_neg hw] at h
          exact Option.noConfusion h
      · rw [if_neg hc] at h
        simp only [Option.some.injEq, Prod.mk.injEq] at h
        obtain ⟨hg, _⟩ := h
        subst hg
        intro hmem
        have := List.mem_takeWhile_imp hmem
        simp at this

/-- The ending stage returns its groups unchanged. -/
theorem depStage3_inv (g2 g3 t14 x y : Str) (w : Bool)
    (h : depStage3 g2 g3 t14 = some (x, y, w)) : x = g2 ∧ y = g3 := by
  unfold depStage3 at h
  split at h
  · split at h
    · exact Option.noConfusion h
    · split at h
      · exact Option.noConfusion h
      · split at h
        · simp only [Option.some.injEq, Prod.mk.injEq] at h
          exact ⟨h.1.symm, h.2.1.symm⟩
        · exact Option.noConfusion h
  · split at h
    · simp only [Option.some.injEq, Prod.mk.injEq] at h
      exact ⟨h.1.symm, h.2.1.symm⟩
    · exact Option.noConfusion h
  · exact Option.noConfusion h

/-- The middle stage produces a digits-and-dots current version and
passes the compatibility group through. -/
theorem depStage2_inv (g2 t7 x y : Str) (w : Bool)
    (h : depStage2 g2 t7 = some (x, y, w)) :
    (∀ d ∈ y, isDigitDot d = true) ∧ x = g2 := by
  unfold depStage2 at h
  split at h
  · exact Option.noConfusion h
  · split at h
    · exact Option.noConfusion h
    · split at h
      · exact Option.noConfusion h
      · split at h
        · exact Option.noConfusion h
        · split at h
          · exact Option.noConfusion h
          · split at h
            · exact Option.noConfusion h
            · unfold depStage2Tail at h
              split at h
              · exact Option.noConfusion h
              · obtain ⟨hx, hy⟩ := depStage3_inv _ _ _ _ _ _ h
                subst hy
                refine ⟨fun d hd => List.mem_takeWhile_imp hd, hx⟩

/-- The full tail matcher produces a digits-and-dots current version
and a comma-free compatibility version. -/
theorem matchDepTail_inv (t x y : Str) (w : Bool)
    (h : matchDepTail t = some (x, y, w)) :
    (∀ d ∈ y, isDigitDot d = true) ∧ ',' ∉ x := by
  unfold matchDepTail at h
  split at h
  · exact Option.noConfusion h
  · split at h
    · exact Option.noConfusion h
    · split at h
      · exact Option.noConfusion h
      · split at h
        · exact Option.noConfusion h
        · split at h
          · exact Option.noConfusion h
          · split at h
            · exact Option.noConfusion h
            · rename_i heq
              obtain ⟨hy, hx⟩ := depStage2_inv _ _ _ _ _ h
              subst hx
              exact ⟨hy, depGroup2_inv _ _ _ heq⟩

/-- A full-line match witnesses a tail match with the same groups. -/
theorem depMatchGo_inv :
    ∀ (rest acc p x y : Str) (w : Bool), depMatchGo acc rest = some (p, x, y, w) →
      ∃ t, matchDepTail t = some (x, y, w)
  | [], acc, p, x, y, w, h => by
    simp only [depMatchGo] at h
    rw [show matchDepTail [] = (none : Option (Str × Str × Bool)) from rfl] at h
    simp [depMatchStep] at h
  | c :: r, acc, p, x, y, w, h => by
    simp only [depMatchGo] at h
    cases hm : matchDepTail (c :: r) with
    | some g =>
      obtain ⟨x2, y2, w2⟩ := g
      rw [hm] at h
      simp only [depMatchStep, Option.some.injEq, Prod.mk.injEq] at h
      obtain ⟨-, hx2, hy2, hw2⟩ := h
      exact ⟨c :: r, by rw [hm, hx2, hy2, hw2]⟩
    | none =>
      rw [hm] at h
      simp only [depMatchStep] at h
      split at h
      · exact Option.noConfusion h
      · exact depMatchGo_inv r (c :: acc) p x y w h

/-- C10: a dependency line is parsed into the structured variant only
with a current-version group consisting solely of digits and dots and a
compatibility-version group containing no comma; a line of the textual
shape whose current version contains a letter produces a raw record. -/
theorem claim_C10 :
    (∀ l p x y : Str, ∀ w : Bool, depMatch l = some (p, x, y, w) →
        (∀ d ∈ y, isDigitDot d = true) ∧ ',' ∉ x)
    ∧ depRecordOfLine (s2l "/usr/lib/a.dylib (compatibility version 1.0, current version 1.0b3)") =
        some (Dep.raw (s2l "/usr/lib/a.dylib (compatibility version 1.0, current version 1.0b3)")) := by
  constructor
  · intro l p x y w h
    obtain ⟨t, ht⟩ := depMatchGo_inv l [] p x y w h
    exact matchDepTail_inv t x y w ht
  · decide

/-- C10 witness: the group guarantees at a concrete structured line. -/
theorem claim_C10_witness :
    (∀ d ∈ s2l "1.2.11", isDigitDot d = true) ∧ ',' ∉ s2l "1.0" :=
  claim_C10.1 (s2l "/usr/lib/libz.dylib (compatibility version 1.0, current version 1.2.11)")
    (s2l "/usr/lib/libz.dylib") (s2l "1.0") (s2l "1.2.11") false (by decide)

/-!  Claim C7 infrastructure, part 1: the string encoder and decoder
are mutually inverse. -/

theorem readHexDigit_hexDig (n : Nat) (h : n < 16) : readHexDigit (hexDig n) = some n := by
  interval_cases n <;> decide

theorem parseU4_hex4 (n : Nat) (h : n < 65536) (T : Str) :
    parseU4 (hex4 n ++ T) = some (n, T) := by
  have hA : readHexDigit (hexDig (n / 4096 % 16)) = some (n / 4096 % 16) :=
    readHexDigit_hexDig _ (by omega)
  have hB : readHexDigit (hexDig (n / 256 % 16)) = some (n / 256 % 16) :=
    readHexDigit_hexDig _ (by omega)
  have hC : readHexDigit (hexDig (n / 16 % 16)) = some (n / 16 % 16) :=
    readHexDigit_hexDig _ (by omega)
  have hD : readHexDigit (hexDig (n % 16)) = some (n % 16) :=
    readHexDigit_hexDig _ (by omega)
  have harith : ((n / 4096 % 16 * 16 + n / 256 % 16) * 16 + n / 16 % 16) * 16 + n % 16 = n := by
    omega
  simp only [hex4, List.cons_append, List.nil_append]
  simp [parseU4, hA, hB, hC, hD, harith]

theorem parseUEscape_single (n : Nat) (T : Str) (hn16 : n < 65536)
    (hn1 : ¬(55296 ≤ n ∧ n < 56320)) (hn2 : ¬(56320 ≤ n ∧ n < 57344)) :
    parseUEscape (hex4 n ++ T) = some (Char.ofNat n, T) := by
  unfold parseUEscape
  rw [parseU4_hex4 n hn16 T]
  dsimp only
  rw [if_neg hn1, if_neg hn2]

theorem parseUEscape_pair (n w : Nat) (T : Str) (hn16 : n < 65536) (hw16 : w < 65536)
    (hn : 55296 ≤ n ∧ n < 56320) (hw : 56320 ≤ w ∧ w < 57344) :
    parseUEscape (hex4 n ++ ('\\' :: 'u' :: (hex4 w ++ T))) =
      some (Char.ofNat (65536 + (n - 55296) * 1024 + (w - 56320)), T) := by
  unfold parseUEscape
  rw [parseU4_hex4 n hn16]
  dsimp only
  rw [if_pos hn, if_pos ⟨rfl, rfl⟩, parseU4_hex4 w hw16]
  dsimp only
  rw [if_pos hw]

theorem char_toNat_lt (c : Char) : c.toNat < 1114112 := by
  have h := c.valid
  unfold UInt32.isValidChar Nat.isValidChar at h
  have he : c.toNat = c.val.toNat := rfl
  omega

theorem char_not_surrogate (c : Char) : c.toNat < 55296 ∨ 57343 < c.toNat := by
  have h := c.valid
  unfold UInt32.isValidChar Nat.isValidChar at h
  rcases h with h | ⟨h, _⟩
  · exact Or.inl h
  · exact Or.inr h

theorem parseOneChar_u (R : Str) : parseOneChar ('\\' :: 'u' :: R) = parseUEscape R := by
  simp [parseOneChar]

theorem parseOneChar_esc (c : Char) (T : Str) :
    parseOneChar (escChar c ++ T) = some (c, T) := by
  by_cases h1 : c = '"'
  · subst h1; simp [escChar, parseOneChar, escapeOf]
  · by_cases h2 : c = '\\'
    · subst h2; simp [escChar, parseOneChar, escapeOf]
    · by_cases h3 : c = '\n'
      · subst h3; simp [escChar, parseOneChar, escapeOf]
      · by_cases h4 : c = '\x0d'
        · subst h4; simp [escChar, parseOneChar, escapeOf]
        · by_cases h5 : c = '\t'
          · subst h5; simp [escChar, parseOneChar, escapeOf]
          · by_cases h6 : c = '\x08'
            · subst h6; simp [escChar, parseOneChar, escapeOf]
            · by_cases h7 : c = '\x0c'
              · subst h7; simp [escChar, parseOneChar, escapeOf]
              · by_cases h8 : 32 ≤ c.toNat ∧ c.toNat ≤ 126
                · rw [show escChar c = [c] by
                    simp [escChar, h1, h2, h3, h4, h5, h6, h7, h8]]
                  simp [parseOneChar, h1, h2]
                · by_cases h9 : c.toNat < 65536
                  · have hesc : escChar c = '\\' :: 'u' :: hex4 c.toNat := by
                      simp [escChar, h1, h2, h3, h4, h5, h6, h7, h8, h9]
                    have hval := char_not_surrogate c
                    have hni1 : ¬(55296 ≤ c.toNat ∧ c.toNat < 56320) := by omega
                    have hni2 : ¬(56320 ≤ c.toNat ∧ c.toNat < 57344) := by omega
                    rw [hesc]
                    have hstep : ('\\' :: 'u' :: hex4 c.toNat) ++ T =
                        '\\' :: 'u' :: (hex4 c.toNat ++ T) := by simp
                    rw [hstep, parseOneChar_u,
                      parseUEscape_single c.toNat T h9 hni1 hni2, Char.ofNat_toNat]
                  · have hub := char_toNat_lt c
                    have h9n : 65536 ≤ c.toNat := by omega
                    have hesc : escChar c =
                        ('\\' :: 'u' :: hex4 (55296 + (c.toNat - 65536) / 1024)) ++
                          ('\\' :: 'u' :: hex4 (56320 + (c.toNat - 65536) % 1024)) := by
                      simp [escChar, h1, h2, h3, h4, h5, h6, h7, h8, h9]
                    have hif1 : 55296 ≤ 55296 + (c.toNat - 65536) / 1024 ∧
                        55296 + (c.toNat - 65536) / 1024 < 56320 := by omega
                    have hif2 : 56320 ≤ 56320 + (c.toNat - 65536) % 1024 ∧
                        56320 + (c.toNat - 65536) % 1024 < 57344 := by omega
                    have harith : 65536 + (55296 + (c.toNat - 65536) / 1024 - 55296) * 1024 +
                        (56320 + (c.toNat - 65536) % 1024 - 56320) = c.toNat := by omega
                    rw [hesc]
                    have hstep : (('\\' :: 'u' :: hex4 (55296 + (c.toNat - 65536) / 1024)) ++
                          ('\\' :: 'u' :: hex4 (56320 + (c.toNat - 65536) % 1024))) ++ T =
                        '\\' :: 'u' :: (hex4 (55296 + (c.toNat - 65536) / 1024) ++
                          ('\\' :: 'u' :: (hex4 (56320 + (c.toNat - 65536) % 1024) ++ T))) := by
                      simp
                    rw [hstep, parseOneChar_u,
                      parseUEscape_pair (55296 + (c.toNat - 65536) / 1024)
                        (56320 + (c.toNat - 65536) % 1024) T (by omega) (by omega) hif1 hif2,
                      harith, Char.ofNat_toNat]

theorem escChar_head (c : Char) : ∃ d ds, escChar c = d :: ds ∧ ¬(d = '"') := by
  by_cases h1 : c = '"'
  · exact ⟨'\\', _, by subst h1; rfl, by decide⟩
  · by_cases h2 : c = '\\'
    · exact ⟨'\\', _, by subst h2; rfl, by decide⟩
    · by_cases h3 : c = '\n'
      · exact ⟨'\\', _, by subst h3; rfl, by decide⟩
      · by_cases h4 : c = '\x0d'
        · exact ⟨'\\', _, by subst h4; rfl, by decide⟩
        · by_cases h5 : c = '\t'
          · exact ⟨'\\', _, by subst h5; rfl, by decide⟩
          · by_cases h6 : c = '\x08'
            · exact ⟨'\\', _, by subst h6; rfl, by decide⟩
            · by_cases h7 : c = '\x0c'
              · exact ⟨'\\', _, by subst h7; rfl, by decide⟩
              · by_cases h8 : 32 ≤ c.toNat ∧ c.toNat ≤ 126
                · exact ⟨c, [], by simp [escChar, h1, h2, h3, h4, h5, h6, h7, h8], h1⟩
                · by_cases h9 : c.toNat < 65536
                  · exact ⟨'\\', 'u' :: hex4 c.toNat,
                      by simp [escChar, h1, h2, h3, h4, h5, h6, h7, h8, h9], by decide⟩
                  · exact ⟨'\\', 'u' :: hex4 (55296 + (c.toNat - 65536) / 1024) ++
                        ('\\' :: 'u' :: hex4 (56320 + (c.toNat - 65536) % 1024)),
                      by simp [escChar, h1, h2, h3, h4, h5, h6, h7, h8, h9], by decide⟩

theorem parseStrBodyF_rt : ∀ (s : Str) (fuel : Nat) (T : Str), s.length < fuel →
    parseStrBodyF fuel ((s.map escChar).flatten ++ '"' :: T) = some (s, T)
  | [], fuel, T, hf => by
    cases fuel with
    | zero => omega
    | succ fuel =>
      simp only [List.map_nil, List.flatten_nil, List.nil_append, parseStrBodyF]
      simp
  | c :: s2, fuel, T, hf => by
    cases fuel with
    | zero => omega
    | succ fuel =>
      obtain ⟨d, ds, hd, hdq⟩ := escChar_head c
      have hinput : ((c :: s2).map escChar).flatten ++ '"' :: T =
          d :: (ds ++ ((s2.map escChar).flatten ++ '"' :: T)) := by
        simp [hd]
      rw [hinput]
      simp only [parseStrBodyF]
      rw [if_neg hdq]
      have hone : parseOneChar (d :: (ds ++ ((s2.map escChar).flatten ++ '"' :: T))) =
          some (c, (s2.map escChar).flatten ++ '"' :: T) := by
        have h2 := parseOneChar_esc c ((s2.map escChar).flatten ++ '"' :: T)
        rw [hd] at h2
        simpa using h2
      rw [hone]
      dsimp only
      rw [parseStrBodyF_rt s2 fuel T
        (by simp only [List.length_cons] at hf; omega)]

theorem length_le_flatten_escChar (s : Str) : s.length ≤ (s.map escChar).flatten.length := by
  induction s with
  | nil => simp
  | cons c s ih =>
    obtain ⟨d, ds, hd, _⟩ := escChar_head c
    simp only [List.map_cons, List.flatten_cons, List.length_append, List.length_cons, hd]
    omega

theorem parseString_rt (s T : Str) : parseString (encStr s ++ T) = some (s, T) := by
  have h1 : encStr s ++ T = '"' :: ((s.map escChar).flatten ++ ('"' :: T)) := by
    simp [encStr]
  rw [h1]
  simp only [parseString]
  apply parseStrBodyF_rt
  have := length_le_flatten_escChar s
  simp only [List.length_append, List.length_cons]
  omega

/-!  Claim C7 infrastructure, part 2: decoding the serialised objects
and arrays, for any layout whose decorations are whitespace. -/

/-- A layout all of whose decorations are JSON whitespace. -/
def GoodStyle (st : JStyle) : Prop :=
  (∀ l, (st.afterOpen l).all jsonWs = true) ∧ (∀ l, (st.afterComma l).all jsonWs = true) ∧
    (∀ l, (st.beforeClose l).all jsonWs = true) ∧ st.afterColon.all jsonWs = true

/-- The compact layout is a whitespace layout. -/
theorem goodStyle_compact : GoodStyle compactStyle := by
  exact ⟨fun l => rfl, fun l => rfl, fun l => rfl, by decide⟩

/-- Four-space padding is whitespace. -/
theorem pad_all_ws (n : Nat) : (pad n).all jsonWs = true := by
  simp only [pad, List.all_eq_true]
  intro c hc
  rcases List.eq_of_mem_replicate hc with rfl
  decide

/-- The indented layout is a whitespace layout. -/
theorem goodStyle_indent : GoodStyle indentStyle := by
  refine ⟨fun l => ?_, fun l => ?_, fun l => ?_, ?_⟩
  · rw [show indentStyle.afterOpen l = '\n' :: pad (l + 1) from rfl, List.all_cons, pad_all_ws]
    decide
  · rw [show indentStyle.afterComma l = '\n' :: pad (l + 1) from rfl, List.all_cons, pad_all_ws]
    decide
  · rw [show indentStyle.beforeClose l = '\n' :: pad l from rfl, List.all_cons, pad_all_ws]
    decide
  · decide

/-- Whitespace before a token is skipped. -/
theorem skipJWs_ws_append (w s : Str) (hw : w.all jsonWs = true) :
    skipJWs (w ++ s) = skipJWs s := by
  induction w with
  | nil => simp [skipJWs]
  | cons c w ih =>
    simp only [List.all_cons, Bool.and_eq_true] at hw
    simp only [List.cons_append, skipJWs, List.dropWhile_cons, hw.1, if_true]
    exact ih hw.2

/-- A non-whitespace head stops the skip. -/
theorem skipJWs_cons (c : Char) (s : Str) (hc : jsonWs c = false) :
    skipJWs (c :: s) = c :: s := by
  simp [skipJWs, List.dropWhile_cons, hc]

/-- reqChar accepts its own character. -/
theorem reqChar_self (c : Char) (s : Str) : reqChar c (c :: s) = some s := by
  simp [reqChar]

/-- A string literal is not preceded by whitespace. -/
theorem skipJWs_encStr (s rest : Str) : skipJWs (encStr s ++ rest) = encStr s ++ rest := by
  have h1 : encStr s ++ rest = '"' :: (((s.map escChar).flatten ++ ['"']) ++ rest) := by
    simp [encStr]
  rw [h1, skipJWs_cons _ _ (by decide)]

/-- A key/value member is not preceded by whitespace. -/
theorem skipJWs_encKV (st : JStyle) (k v rest : Str) :
    skipJWs (encKV st k v ++ rest) = encKV st k v ++ rest := by
  have h1 : encKV st k v ++ rest = encStr k ++ ((':' :: st.afterColon ++ v) ++ rest) := by
    simp [encKV]
  rw [h1, skipJWs_encStr]

/-- Decoding a serialised string member. -/
theorem parseStrField_rt (st : JStyle) (hcl : st.afterColon.all jsonWs = true)
    (k v rest : Str) :
    parseStrField (encKV st k (encStr v) ++ rest) = some (k, v, rest) := by
  have h1 : encKV st k (encStr v) ++ rest =
      encStr k ++ (':' :: (st.afterColon ++ (encStr v ++ rest))) := by
    simp [encKV]
  rw [h1]
  simp only [parseStrField]
  rw [parseString_rt]
  dsimp only
  rw [skipJWs_cons ':' _ (by decide), reqChar_self]
  dsimp only
  rw [skipJWs_ws_append _ _ hcl, skipJWs_encStr, parseString_rt]

/-- A non-whitespace head lets the whole string through skipJWs, also
with a continuation appended. -/
theorem skipJWs_append_head (c : Char) (t X : Str) (hc : jsonWs c = false) :
    skipJWs ((c :: t) ++ X) = (c :: t) ++ X := by
  rw [List.cons_append]
  exact skipJWs_cons c _ hc

/-- skipJWs is the identity on strings with a known non-whitespace
head, with a continuation appended. -/
theorem skipJWs_eq_self_of_head (s X : Str) (c : Char) (t : Str) (hs : s = c :: t)
    (hc : jsonWs c = false) : skipJWs (s ++ X) = s ++ X := by
  subst hs
  exact skipJWs_append_head c t X hc

/-- joinSep keeps the head of its first item. -/
theorem joinSep_head (sep e : Str) (es : List Str) (c : Char) (t : Str) (he : e = c :: t) :
    ∃ u, joinSep sep (e :: es) = c :: u := by
  cases es with
  | nil => exact ⟨t, by simp [joinSep, he]⟩
  | cons x xs => exact ⟨t ++ sep ++ joinSep sep (x :: xs), by simp [joinSep, he]⟩

/-- Joining nonempty items yields at least one character per item. -/
theorem joinSep_length_ge (sep : Str) (es : List Str) (h : ∀ e ∈ es, e ≠ []) :
    es.length ≤ (joinSep sep es).length := by
  induction es with
  | nil => simp [joinSep]
  | cons x xs ih =>
    cases xs with
    | nil =>
      have hx : 0 < x.length := List.length_pos.mpr (h x (by simp))
      simp only [joinSep, List.length_cons, List.length_nil]
      omega
    | cons y ys =>
      have hx : 0 < x.length := List.length_pos.mpr (h x (by simp))
      have ih2 := ih (fun e he => h e (List.mem_cons_of_mem x he))
      simp only [joinSep, List.length_cons, List.length_append] at ih2 ⊢
      omega

/-- The head of a serialised container is its opening bracket. -/
theorem encContainer_head (op cl : Char) (st : JStyle) (lvl : Nat) (items : List Str) :
    ∃ t, encContainer op cl st lvl items = op :: t := by
  cases items with
  | nil => exact ⟨[cl], rfl⟩
  | cons x xs => exact ⟨_, rfl⟩

/-- Every serialised dependency object starts with a brace. -/
theorem encDep_head (st : JStyle) (lvl : Nat) (d : Dep) :
    ∃ t, encDep st lvl d = '\x7b' :: t := by
  cases d with
  | structured p x y w =>
    exact encContainer_head '\x7b' '\x7d' st lvl
      [encKV st (s2l "path") (encStr p),
       encKV st (s2l "compatibility_version") (encStr x),
       encKV st (s2l "current_version") (encStr y),
       encKV st (s2l "weak") (if w then s2l "true" else s2l "false")]
  | raw r => exact encContainer_head '\x7b' '\x7d' st lvl [encKV st (s2l "raw") (encStr r)]

/-- Every serialised signing fact starts with a brace. -/
theorem encFact_head (st : JStyle) (lvl : Nat) (f : SigningFact) :
    ∃ t, encFact st lvl f = '\x7b' :: t :=
  encContainer_head '\x7b' '\x7d' st lvl
    [encKV st (s2l "type") (encStr f.type), encKV st (s2l "value") (encStr f.value)]

/-- Every serialised record starts with a brace. -/
theorem encMeta_head (st : JStyle) (lvl : Nat) (m : Meta) :
    ∃ t, encMeta st lvl m = '\x7b' :: t := by
  simp only [encMeta]
  exact encContainer_head _ _ _ _ _

/-- Every serialised member starts with the quote of its key. -/
theorem encKV_head (st : JStyle) (k v : Str) : ∃ t, encKV st k v = '"' :: t :=
  ⟨_, rfl⟩

/-- Serialised dependency objects are nonempty. -/
theorem encDep_ne_nil (st : JStyle) (lvl : Nat) (d : Dep) : encDep st lvl d ≠ [] := by
  obtain ⟨t, ht⟩ := encDep_head st lvl d
  simp [ht]

/-- Serialised signing facts are nonempty. -/
theorem encFact_ne_nil (st : JStyle) (lvl : Nat) (f : SigningFact) : encFact st lvl f ≠ [] := by
  obtain ⟨t, ht⟩ := encFact_head st lvl f
  simp [ht]

/-- Serialised records are nonempty. -/
theorem encMeta_ne_nil (st : JStyle) (lvl : Nat) (m : Meta) : encMeta st lvl m ≠ [] := by
  obtain ⟨t, ht⟩ := encMeta_head st lvl m
  simp [ht]

/-- Serialised members are nonempty. -/
theorem encKV_ne_nil (st : JStyle) (k v : Str) : encKV st k v ≠ [] := by
  obtain ⟨t, ht⟩ := encKV_head st k v
  simp [ht]

/-- Every serialised value starts with a non-whitespace character. -/
theorem encValue_head (st : JStyle) (lvl : Nat) (v : Value) :
    ∃ c t, encValue st lvl v = c :: t ∧ jsonWs c = false := by
  cases v with
  | str s => exact ⟨'"', _, rfl, by decide⟩
  | deps ds =>
    obtain ⟨t, ht⟩ := encContainer_head '[' ']' st lvl (ds.map (encDep st (lvl + 1)))
    exact ⟨'[', t, ht, by decide⟩
  | signs fs =>
    obtain ⟨t, ht⟩ := encContainer_head '[' ']' st lvl (fs.map (encFact st (lvl + 1)))
    exact ⟨'[', t, ht, by decide⟩

/-- The true literal decodes. -/
theorem parseBool_true (X : Str) : parseBool (s2l "true" ++ X) = some (true, X) := by
  simp only [parseBool, dropLit_append]

/-- The false literal decodes. -/
theorem parseBool_false (X : Str) : parseBool (s2l "false" ++ X) = some (false, X) := by
  have h1 : dropLit (s2l "true") (s2l "false" ++ X) = none := by
    rw [show s2l "true" = 't' :: s2l "rue" from rfl,
      show s2l "false" ++ X = 'f' :: (s2l "alse" ++ X) from rfl]
    simp only [dropLit]
    rw [if_neg (by decide)]
  simp only [parseBool, h1, dropLit_append]

/-- The encoded boolean decodes. -/
theorem parseBool_enc (w : Bool) (X : Str) :
    parseBool ((if w then s2l "true" else s2l "false") ++ X) = some (w, X) := by
  cases w
  · simpa using parseBool_false X
  · simpa using parseBool_true X

/-- The encoded boolean is not preceded by whitespace. -/
theorem skipJWs_boolLit (w : Bool) (X : Str) :
    skipJWs ((if w then s2l "true" else s2l "false") ++ X) =
      (if w then s2l "true" else s2l "false") ++ X := by
  cases w
  · rw [show (if false then s2l "true" else s2l "false") = 'f' :: s2l "alse" from rfl]
    exact skipJWs_append_head _ _ X (by decide)
  · rw [show (if true then s2l "true" else s2l "false") = 't' :: s2l "rue" from rfl]
    exact skipJWs_append_head _ _ X (by decide)

/-- Decoding a serialised signing fact. -/
theorem parseFactObj_rt (st : JStyle) (hst : GoodStyle st) (lvl : Nat) (f : SigningFact)
    (rest : Str) : parseFactObj (encFact st lvl f ++ rest) = some (f, rest) := by
  obtain ⟨ho, hcm, hbc, hcl⟩ := hst
  have h1 : encFact st lvl f ++ rest =
      '\x7b' :: (st.afterOpen lvl ++
        (encKV st (s2l "type") (encStr f.type) ++
          (',' :: (st.afterComma lvl ++
            (encKV st (s2l "value") (encStr f.value) ++
              (st.beforeClose lvl ++ ('\x7d' :: rest))))))) := by
    simp [encFact, encContainer, joinSep]
  rw [h1]
  simp only [parseFactObj]
  rw [if_pos trivial, skipJWs_ws_append _ _ (ho lvl), skipJWs_encKV, parseStrField_rt st hcl]
  dsimp only
  rw [if_pos rfl, skipJWs_cons ',' _ (by decide), reqChar_self]
  dsimp only
  rw [skipJWs_ws_append _ _ (hcm lvl), skipJWs_encKV, parseStrField_rt st hcl]
  dsimp only
  rw [if_pos rfl, skipJWs_ws_append _ _ (hbc lvl), skipJWs_cons '\x7d' _ (by decide), reqChar_self]

/-- Decoding a serialised raw dependency record. -/
theorem parseDepObj_raw_rt (st : JStyle) (hst : GoodStyle st) (lvl : Nat) (v rest : Str) :
    parseDepObj (encDep st lvl (.raw v) ++ rest) = some (.raw v, rest) := by
  obtain ⟨ho, hcm, hbc, hcl⟩ := hst
  have h1 : encDep st lvl (.raw v) ++ rest =
      '\x7b' :: (st.afterOpen lvl ++
        (encKV st (s2l "raw") (encStr v) ++ (st.beforeClose lvl ++ ('\x7d' :: rest)))) := by
    simp [encDep, encContainer, joinSep]
  rw [h1]
  simp only [parseDepObj]
  rw [if_pos trivial, skipJWs_ws_append _ _ (ho lvl), skipJWs_encKV, parseStrField_rt st hcl]
  dsimp only
  rw [if_pos rfl, skipJWs_ws_append _ _ (hbc lvl), skipJWs_cons '\x7d' _ (by decide), reqChar_self]

/-- Decoding a serialised structured dependency record. -/
theorem parseDepObj_str_rt (st : JStyle) (hst : GoodStyle st) (lvl : Nat) (p x y : Str)
    (w : Bool) (rest : Str) :
    parseDepObj (encDep st lvl (.structured p x y w) ++ rest) =
      some (.structured p x y w, rest) := by
  obtain ⟨ho, hcm, hbc, hcl⟩ := hst
  have h1 : encDep st lvl (.structured p x y w) ++ rest =
      '\x7b' :: (st.afterOpen lvl ++
        (encKV st (s2l "path") (encStr p) ++
          (',' :: (st.afterComma lvl ++
            (encKV st (s2l "compatibility_version") (encStr x) ++
              (',' :: (st.afterComma lvl ++
                (encKV st (s2l "current_version") (encStr y) ++
                  (',' :: (st.afterComma lvl ++
                    (encStr (s2l "weak") ++
                      (':' :: (st.afterColon ++
                        ((if w then s2l "true" else s2l "false") ++
                          (st.beforeClose lvl ++ ('\x7d' :: rest)))))))))))))))) := by
    simp [encDep, encContainer, joinSep, encKV]
  rw [h1]
  simp only [parseDepObj]
  rw [if_pos trivial, skipJWs_ws_append _ _ (ho lvl), skipJWs_encKV, parseStrField_rt st hcl]
  dsimp only
  rw [if_neg (by decide), if_pos rfl, skipJWs_cons ',' _ (by decide), reqChar_self]
  dsimp only
  rw [skipJWs_ws_append _ _ (hcm lvl), skipJWs_encKV, parseStrField_rt st hcl]
  dsimp only
  rw [if_pos rfl, skipJWs_cons ',' _ (by decide), reqChar_self]
  dsimp only
  rw [skipJWs_ws_append _ _ (hcm lvl), skipJWs_encKV, parseStrField_rt st hcl]
  dsimp only
  rw [if_pos rfl, skipJWs_cons ',' _ (by decide), reqChar_self]
  dsimp only
  rw [skipJWs_ws_append _ _ (hcm lvl), skipJWs_encStr, parseString_rt]
  dsimp only
  rw [if_pos rfl, skipJWs_cons ':' _ (by decide), reqChar_self]
  dsimp only
  rw [skipJWs_ws_append _ _ hcl, skipJWs_boolLit, parseBool_enc]
  dsimp only
  rw [skipJWs_ws_append _ _ (hbc lvl), skipJWs_cons '\x7d' _ (by decide), reqChar_self]

/-- Decoding any serialised dependency record. -/
theorem parseDepObj_rt (st : JStyle) (hst : GoodStyle st) (lvl : Nat) (d : Dep) (rest : Str) :
    parseDepObj (encDep st lvl d ++ rest) = some (d, rest) := by
  cases d with
  | structured p x y w => exact parseDepObj_str_rt st hst lvl p x y w rest
  | raw v => exact parseDepObj_raw_rt st hst lvl v rest

/-- Decoding the serialised items of a nonempty dependency array. -/
theorem parseDepItems_rt (st : JStyle) (hst : GoodStyle st) (lvl : Nat) :
    ∀ (ds : List Dep) (fuel : Nat) (rest : Str), ds ≠ [] → ds.length < fuel →
      parseDepItems fuel
        (joinSep (',' :: st.afterComma lvl) (ds.map (encDep st (lvl + 1))) ++
          (st.beforeClose lvl ++ (']' :: rest))) = some (ds, rest) := by
  intro ds
  induction ds with
  | nil => intro fuel rest hne _; exact absurd rfl hne
  | cons d ds ih =>
    intro fuel rest _ hfuel
    obtain ⟨f, rfl⟩ : ∃ f, fuel = f + 1 := ⟨fuel - 1, by omega⟩
    have hcm := hst.2.1
    have hbc := hst.2.2.1
    cases ds with
    | nil =>
      have h1 : joinSep (',' :: st.afterComma lvl) ([d].map (encDep st (lvl + 1))) ++
          (st.beforeClose lvl ++ (']' :: rest)) =
          encDep st (lvl + 1) d ++ (st.beforeClose lvl ++ (']' :: rest)) := by
        simp [joinSep]
      rw [h1]
      simp only [parseDepItems]
      rw [parseDepObj_rt st hst (lvl + 1)]
      dsimp only
      rw [skipJWs_ws_append _ _ (hbc lvl), skipJWs_cons ']' _ (by decide)]
      dsimp only
      rw [if_neg (by decide), if_pos rfl]
    | cons d2 ds2 =>
      have h1 : joinSep (',' :: st.afterComma lvl) ((d :: d2 :: ds2).map (encDep st (lvl + 1))) ++
          (st.beforeClose lvl ++ (']' :: rest)) =
          encDep st (lvl + 1) d ++
            (',' :: (st.afterComma lvl ++
              (joinSep (',' :: st.afterComma lvl) ((d2 :: ds2).map (encDep st (lvl + 1))) ++
                (st.beforeClose lvl ++ (']' :: rest))))) := by
        simp [joinSep]
      rw [h1]
      simp only [parseDepItems]
      rw [parseDepObj_rt st hst (lvl + 1)]
      dsimp only
      rw [skipJWs_cons ',' _ (by decide)]
      dsimp only
      rw [if_pos rfl, skipJWs_ws_append _ _ (hcm lvl)]
      obtain ⟨u, hu⟩ := encDep_head st (lvl + 1) d2
      obtain ⟨u2, hu2⟩ := joinSep_head (',' :: st.afterComma lvl) (encDep st (lvl + 1) d2)
        (ds2.map (encDep st (lvl + 1))) '\x7b' u hu
      have hJ : joinSep (',' :: st.afterComma lvl) ((d2 :: ds2).map (encDep st (lvl + 1))) =
          '\x7b' :: u2 := by
        rw [show (d2 :: ds2).map (encDep st (lvl + 1)) =
          encDep st (lvl + 1) d2 :: ds2.map (encDep st (lvl + 1)) from rfl]
        exact hu2
      rw [skipJWs_eq_self_of_head _ _ '\x7b' u2 hJ (by decide)]
      rw [ih f rest (List.cons_ne_nil _ _) (by simp only [List.length_cons] at hfuel ⊢; omega)]

/-- Decoding a serialised dependency array. -/
theorem parseDepArr_rt (st : JStyle) (hst : GoodStyle st) (lvl : Nat) (ds : List Dep)
    (rest : Str) : parseDepArr (encValue st lvl (.deps ds) ++ rest) = some (ds, rest) := by
  have ho := hst.1
  cases ds with
  | nil =>
    have h1 : encValue st lvl (.deps []) ++ rest = '[' :: (']' :: rest) := by
      simp [encValue, encContainer]
    rw [h1]
    simp only [parseDepArr]
    rw [if_pos trivial, skipJWs_cons ']' _ (by decide)]
    dsimp only
    rw [if_pos rfl]
  | cons d ds =>
    have h1 : encValue st lvl (.deps (d :: ds)) ++ rest =
        '[' :: (st.afterOpen lvl ++
          (joinSep (',' :: st.afterComma lvl) ((d :: ds).map (encDep st (lvl + 1))) ++
            (st.beforeClose lvl ++ (']' :: rest)))) := by
      simp [encValue, encContainer]
    rw [h1]
    simp only [parseDepArr]
    rw [if_pos trivial, skipJWs_ws_append _ _ (ho lvl)]
    obtain ⟨u, hu⟩ := encDep_head st (lvl + 1) d
    obtain ⟨u2, hu2⟩ := joinSep_head (',' :: st.afterComma lvl) (encDep st (lvl + 1) d)
      (ds.map (encDep st (lvl + 1))) '\x7b' u hu
    have hJ : joinSep (',' :: st.afterComma lvl) ((d :: ds).map (encDep st (lvl + 1))) =
        '\x7b' :: u2 := by
      rw [show (d :: ds).map (encDep st (lvl + 1)) =
        encDep st (lvl + 1) d :: ds.map (encDep st (lvl + 1)) from rfl]
      exact hu2
    rw [skipJWs_eq_self_of_head _ _ '\x7b' u2 hJ (by decide)]
    rw [hJ, List.cons_append]
    dsimp only
    rw [if_neg (by decide)]
    rw [show ('\x7b' : Char) :: (u2 ++ (st.beforeClose lvl ++ (']' :: rest))) =
        joinSep (',' :: st.afterComma lvl) ((d :: ds).map (encDep st (lvl + 1))) ++
          (st.beforeClose lvl ++ (']' :: rest)) from by rw [hJ, List.cons_append]]
    have hne : ∀ e ∈ (d :: ds).map (encDep st (lvl + 1)), e ≠ [] := by
      intro e he
      obtain ⟨d', _, rfl⟩ := List.mem_map.mp he
      exact encDep_ne_nil st (lvl + 1) d'
    have hlen := joinSep_length_ge (',' :: st.afterComma lvl) _ hne
    rw [hJ] at hlen
    apply parseDepItems_rt st hst lvl (d :: ds) _ rest (List.cons_ne_nil _ _)
    simp only [List.length_map, List.length_cons, List.length_append] at hlen ⊢
    omega

/-- Decoding the serialised items of a nonempty signing-fact array. -/
theorem parseFactItems_rt (st : JStyle) (hst : GoodStyle st) (lvl : Nat) :
    ∀ (fs : List SigningFact) (fuel : Nat) (rest : Str), fs ≠ [] → fs.length < fuel →
      parseFactItems fuel
        (joinSep (',' :: st.afterComma lvl) (fs.map (encFact st (lvl + 1))) ++
          (st.beforeClose lvl ++ (']' :: rest))) = some (fs, rest) := by
  intro fs
  induction fs with
  | nil => intro fuel rest hne _; exact absurd rfl hne
  | cons d fs ih =>
    intro fuel rest _ hfuel
    obtain ⟨f, rfl⟩ : ∃ f, fuel = f + 1 := ⟨fuel - 1, by omega⟩
    have hcm := hst.2.1
    have hbc := hst.2.2.1
    cases fs with
    | nil =>
      have h1 : joinSep (',' :: st.afterComma lvl) ([d].map (encFact st (lvl + 1))) ++
          (st.beforeClose lvl ++ (']' :: rest)) =
          encFact st (lvl + 1) d ++ (st.beforeClose lvl ++ (']' :: rest)) := by
        simp [joinSep]
      rw [h1]
      simp only [parseFactItems]
      rw [parseFactObj_rt st hst (lvl + 1)]
      dsimp only
      rw [skipJWs_ws_append _ _ (hbc lvl), skipJWs_cons ']' _ (by decide)]
      dsimp only
      rw [if_neg (by decide), if_pos rfl]
    | cons d2 fs2 =>
      have h1 : joinSep (',' :: st.afterComma lvl)
          ((d :: d2 :: fs2).map (encFact st (lvl + 1))) ++
          (st.beforeClose lvl ++ (']' :: rest)) =
          encFact st (lvl + 1) d ++
            (',' :: (st.afterComma lvl ++
              (joinSep (',' :: st.afterComma lvl) ((d2 :: fs2).map (encFact st (lvl + 1))) ++
                (st.beforeClose lvl ++ (']' :: rest))))) := by
        simp [joinSep]
      rw [h1]
      simp only [parseFactItems]
      rw [parseFactObj_rt st hst (lvl + 1)]
      dsimp only
      rw [skipJWs_cons ',' _ (by decide)]
      dsimp only
      rw [if_pos rfl, skipJWs_ws_append _ _ (hcm lvl)]
      obtain ⟨u, hu⟩ := encFact_head st (lvl + 1) d2
      obtain ⟨u2, hu2⟩ := joinSep_head (',' :: st.afterComma lvl) (encFact st (lvl + 1) d2)
        (fs2.map (encFact st (lvl + 1))) '\x7b' u hu
      have hJ : joinSep (',' :: st.afterComma lvl) ((d2 :: fs2).map (encFact st (lvl + 1))) =
          '\x7b' :: u2 := by
        rw [show (d2 :: fs2).map (encFact st (lvl + 1)) =
          encFact st (lvl + 1) d2 :: fs2.map (encFact st (lvl + 1)) from rfl]
        exact hu2
      rw [skipJWs_eq_self_of_head _ _ '\x7b' u2 hJ (by decide)]
      rw [ih f rest (List.cons_ne_nil _ _) (by simp only [List.length_cons] at hfuel ⊢; omega)]

/-- Decoding a serialised signing-fact array. -/
theorem parseFactArr_rt (st : JStyle) (hst : GoodStyle st) (lvl : Nat) (fs : List SigningFact)
    (rest : Str) : parseFactArr (encValue st lvl (.signs fs) ++ rest) = some (fs, rest) := by
  have ho := hst.1
  cases fs with
  | nil =>
    have h1 : encValue st lvl (.signs []) ++ rest = '[' :: (']' :: rest) := by
      simp [encValue, encContainer]
    rw [h1]
    simp only [parseFactArr]
    rw [if_pos trivial, skipJWs_cons ']' _ (by decide)]
    dsimp only
    rw [if_pos rfl]
  | cons d fs =>
    have h1 : encValue st lvl (.signs (d :: fs)) ++ rest =
        '[' :: (st.afterOpen lvl ++
          (joinSep (',' :: st.afterComma lvl) ((d :: fs).map (encFact st (lvl + 1))) ++
            (st.beforeClose lvl ++ (']' :: rest)))) := by
      simp [encValue, encContainer]
    rw [h1]
    simp only [parseFactArr]
    rw [if_pos trivial, skipJWs_ws_append _ _ (ho lvl)]
    obtain ⟨u, hu⟩ := encFact_head st (lvl + 1) d
    obtain ⟨u2, hu2⟩ := joinSep_head (',' :: st.afterComma lvl) (encFact st (lvl + 1) d)
      (fs.map (encFact st (lvl + 1))) '\x7b' u hu
    have hJ : joinSep (',' :: st.afterComma lvl) ((d :: fs).map (encFact st (lvl + 1))) =
        '\x7b' :: u2 := by
      rw [show (d :: fs).map (encFact st (lvl + 1)) =
        encFact st (lvl + 1) d :: fs.map (encFact st (lvl + 1)) from rfl]
      exact hu2
    rw [skipJWs_eq_self_of_head _ _ '\x7b' u2 hJ (by decide)]
    rw [hJ, List.cons_append]
    dsimp only
    rw [if_neg (by decide)]
    rw [show ('\x7b' : Char) :: (u2 ++ (st.beforeClose lvl ++ (']' :: rest))) =
        joinSep (',' :: st.afterComma lvl) ((d :: fs).map (encFact st (lvl + 1))) ++
          (st.beforeClose lvl ++ (']' :: rest)) from by rw [hJ, List.cons_append]]
    have hne : ∀ e ∈ (d :: fs).map (encFact st (lvl + 1)), e ≠ [] := by
      intro e he
      obtain ⟨d', _, rfl⟩ := List.mem_map.mp he
      exact encFact_ne_nil st (lvl + 1) d'
    have hlen := joinSep_length_ge (',' :: st.afterComma lvl) _ hne
    rw [hJ] at hlen
    apply parseFactItems_rt st hst lvl (d :: fs) _ rest (List.cons_ne_nil _ _)
    simp only [List.length_map, List.length_cons, List.length_append] at hlen ⊢
    omega

/-- Decoding a well-typed serialised field value, directed by its key. -/
theorem parseFieldValue_wf_rt (st : JStyle) (hst : GoodStyle st) (lvl : Nat) (k : Str)
    (v : Value) (rest : Str) (hwf : wfKV k v = true) :
    parseFieldValue k (encValue st lvl v ++ rest) = some (v, rest) := by
  cases v with
  | str s =>
    simp only [wfKV, Bool.and_eq_true, Bool.not_eq_true', beq_eq_false_iff_ne] at hwf
    simp only [parseFieldValue, encValue]
    rw [if_neg hwf.1, if_neg hwf.2, parseString_rt]
  | deps ds =>
    simp only [wfKV, beq_iff_eq] at hwf
    subst hwf
    simp only [parseFieldValue]
    rw [if_pos trivial, parseDepArr_rt st hst lvl]
  | signs fs =>
    simp only [wfKV, beq_iff_eq] at hwf
    subst hwf
    simp only [parseFieldValue]
    rw [if_pos trivial, parseFactArr_rt st hst lvl, if_neg (by decide)]

/-- Decoding the serialised members of a nonempty well-typed record. -/
theorem parseMetaFields_rt (st : JStyle) (hst : GoodStyle st) (lvl : Nat) :
    ∀ (m : Meta) (fuel : Nat) (rest : Str), m ≠ [] → m.length < fuel → wfMeta m = true →
      parseMetaFields fuel
        (joinSep (',' :: st.afterComma lvl)
            (m.map fun kv => encKV st kv.1 (encValue st (lvl + 1) kv.2)) ++
          (st.beforeClose lvl ++ ('\x7d' :: rest))) = some (m, rest) := by
  intro m
  induction m with
  | nil => intro fuel rest hne _ _; exact absurd rfl hne
  | cons kv m ih =>
    intro fuel rest _ hfuel hwf
    obtain ⟨f, rfl⟩ : ∃ f, fuel = f + 1 := ⟨fuel - 1, by omega⟩
    have hcm := hst.2.1
    have hbc := hst.2.2.1
    have hcl := hst.2.2.2
    have hwf1 : wfKV kv.1 kv.2 = true ∧ wfMeta m = true := by
      simp only [wfMeta, List.all_cons, Bool.and_eq_true] at hwf
      exact ⟨hwf.1, hwf.2⟩
    cases m with
    | nil =>
      have h1 : joinSep (',' :: st.afterComma lvl)
          ([kv].map fun kv => encKV st kv.1 (encValue st (lvl + 1) kv.2)) ++
          (st.beforeClose lvl ++ ('\x7d' :: rest)) =
          encStr kv.1 ++ (':' :: (st.afterColon ++
            (encValue st (lvl + 1) kv.2 ++ (st.beforeClose lvl ++ ('\x7d' :: rest))))) := by
        simp [joinSep, encKV]
      rw [h1]
      simp only [parseMetaFields]
      rw [parseString_rt]
      dsimp only
      rw [skipJWs_cons ':' _ (by decide), reqChar_self]
      dsimp only
      rw [skipJWs_ws_append _ _ hcl]
      obtain ⟨c, t, hv, hc⟩ := encValue_head st (lvl + 1) kv.2
      rw [skipJWs_eq_self_of_head _ _ c t hv hc]
      rw [parseFieldValue_wf_rt st hst (lvl + 1) kv.1 kv.2 _ hwf1.1]
      dsimp only
      rw [skipJWs_ws_append _ _ (hbc lvl), skipJWs_cons '\x7d' _ (by decide)]
      dsimp only
      rw [if_neg (by decide), if_pos rfl]
    | cons kv2 m2 =>
      have h1 : joinSep (',' :: st.afterComma lvl)
          ((kv :: kv2 :: m2).map fun kv => encKV st kv.1 (encValue st (lvl + 1) kv.2)) ++
          (st.beforeClose lvl ++ ('\x7d' :: rest)) =
          encStr kv.1 ++ (':' :: (st.afterColon ++
            (encValue st (lvl + 1) kv.2 ++
              (',' :: (st.afterComma lvl ++
                (joinSep (',' :: st.afterComma lvl)
                    ((kv2 :: m2).map fun kv => encKV st kv.1 (encValue st (lvl + 1) kv.2)) ++
                  (st.beforeClose lvl ++ ('\x7d' :: rest)))))))) := by
        simp [joinSep, encKV]
      rw [h1]
      simp only [parseMetaFields]
      rw [parseString_rt]
      dsimp only
      rw [skipJWs_cons ':' _ (by decide), reqChar_self]
      dsimp only
      rw [skipJWs_ws_append _ _ hcl]
      obtain ⟨c, t, hv, hc⟩ := encValue_head st (lvl + 1) kv.2
      rw [skipJWs_eq_self_of_head _ _ c t hv hc]
      rw [parseFieldValue_wf_rt st hst (lvl + 1) kv.1 kv.2 _ hwf1.1]
      dsimp only
      rw [skipJWs_cons ',' _ (by decide)]
      dsimp only
      rw [if_pos rfl, skipJWs_ws_append _ _ (hcm lvl)]
      obtain ⟨t2, ht2⟩ := encKV_head st kv2.1 (encValue st (lvl + 1) kv2.2)
      obtain ⟨u2, hu2⟩ := joinSep_head (',' :: st.afterComma lvl)
        (encKV st kv2.1 (encValue st (lvl + 1) kv2.2))
        (m2.map fun kv => encKV st kv.1 (encValue st (lvl + 1) kv.2)) '"' t2 ht2
      have hJ : joinSep (',' :: st.afterComma lvl)
          ((kv2 :: m2).map fun kv => encKV st kv.1 (encValue st (lvl + 1) kv.2)) =
          '"' :: u2 := by
        rw [show ((kv2 :: m2).map fun kv => encKV st kv.1 (encValue st (lvl + 1) kv.2)) =
          encKV st kv2.1 (encValue st (lvl + 1) kv2.2) ::
            m2.map (fun kv => encKV st kv.1 (encValue st (lvl + 1) kv.2)) from rfl]
        exact hu2
      rw [skipJWs_eq_self_of_head _ _ '"' u2 hJ (by decide)]
      rw [ih f rest (List.cons_ne_nil _ _)
        (by simp only [List.length_cons] at hfuel ⊢; omega) hwf1.2]

/-- Decoding a serialised well-typed record object. -/
theorem parseMetaObj_rt (st : JStyle) (hst : GoodStyle st) (lvl : Nat) (m : Meta)
    (rest : Str) (hwf : wfMeta m = true) :
    parseMetaObj (encMeta st lvl m ++ rest) = some (m, rest) := by
  have ho := hst.1
  cases m with
  | nil =>
    have h1 : encMeta st lvl [] ++ rest = '\x7b' :: ('\x7d' :: rest) := by
      simp [encMeta, encContainer]
    rw [h1]
    simp only [parseMetaObj]
    rw [if_pos trivial, skipJWs_cons '\x7d' _ (by decide)]
    dsimp only
    rw [if_pos rfl]
  | cons kv m =>
    have h1 : encMeta st lvl (kv :: m) ++ rest =
        '\x7b' :: (st.afterOpen lvl ++
          (joinSep (',' :: st.afterComma lvl)
              ((kv :: m).map fun kv => encKV st kv.1 (encValue st (lvl + 1) kv.2)) ++
            (st.beforeClose lvl ++ ('\x7d' :: rest)))) := by
      simp [encMeta, encContainer]
    rw [h1]
    simp only [parseMetaObj]
    rw [if_pos trivial, skipJWs_ws_append _ _ (ho lvl)]
    obtain ⟨t, ht⟩ := encKV_head st kv.1 (encValue st (lvl + 1) kv.2)
    obtain ⟨u2, hu2⟩ := joinSep_head (',' :: st.afterComma lvl)
      (encKV st kv.1 (encValue st (lvl + 1) kv.2))
      (m.map fun kv => encKV st kv.1 (encValue st (lvl + 1) kv.2)) '"' t ht
    have hJ : joinSep (',' :: st.afterComma lvl)
        ((kv :: m).map fun kv => encKV st kv.1 (encValue st (lvl + 1) kv.2)) =
        '"' :: u2 := by
      rw [show ((kv :: m).map fun kv => encKV st kv.1 (encValue st (lvl + 1) kv.2)) =
        encKV st kv.1 (encValue st (lvl + 1) kv.2) ::
          m.map (fun kv => encKV st kv.1 (encValue st (lvl + 1) kv.2)) from rfl]
      exact hu2
    rw [skipJWs_eq_self_of_head _ _ '"' u2 hJ (by decide)]
    rw [hJ, List.cons_append]
    dsimp only
    rw [if_neg (by decide)]
    rw [show ('"' : Char) :: (u2 ++ (st.beforeClose lvl ++ ('\x7d' :: rest))) =
        joinSep (',' :: st.afterComma lvl)
            ((kv :: m).map fun kv => encKV st kv.1 (encValue st (lvl + 1) kv.2)) ++
          (st.beforeClose lvl ++ ('\x7d' :: rest)) from by rw [hJ, List.cons_append]]
    have hne : ∀ e ∈ (kv :: m).map fun kv => encKV st kv.1 (encValue st (lvl + 1) kv.2),
        e ≠ [] := by
      intro e he
      obtain ⟨kv', _, rfl⟩ := List.mem_map.mp he
      exact encKV_ne_nil st kv'.1 _
    have hlen := joinSep_length_ge (',' :: st.afterComma lvl) _ hne
    rw [hJ] at hlen
    apply parseMetaFields_rt st hst lvl (kv :: m) _ rest (List.cons_ne_nil _ _) _ hwf
    simp only [List.length_map, List.length_cons, List.length_append] at hlen ⊢
    omega

/-- Decoding the serialised items of a nonempty record array. -/
theorem parseMetaItems_rt (st : JStyle) (hst : GoodStyle st) (lvl : Nat) :
    ∀ (rs : List Meta) (fuel : Nat) (rest : Str), rs ≠ [] → rs.length < fuel →
      wfMetas rs = true →
      parseMetaItems fuel
        (joinSep (',' :: st.afterComma lvl) (rs.map (encMeta st (lvl + 1))) ++
          (st.beforeClose lvl ++ (']' :: rest))) = some (rs, rest) := by
  intro rs
  induction rs with
  | nil => intro fuel rest hne _ _; exact absurd rfl hne
  | cons m rs ih =>
    intro fuel rest _ hfuel hwf
    obtain ⟨f, rfl⟩ : ∃ f, fuel = f + 1 := ⟨fuel - 1, by omega⟩
    have hcm := hst.2.1
    have hbc := hst.2.2.1
    have hwf1 : wfMeta m = true ∧ wfMetas rs = true := by
      simp only [wfMetas, List.all_cons, Bool.and_eq_true] at hwf
      exact ⟨hwf.1, hwf.2⟩
    cases rs with
    | nil =>
      have h1 : joinSep (',' :: st.afterComma lvl) ([m].map (encMeta st (lvl + 1))) ++
          (st.beforeClose lvl ++ (']' :: rest)) =
          encMeta st (lvl + 1) m ++ (st.beforeClose lvl ++ (']' :: rest)) := by
        simp [joinSep]
      rw [h1]
      simp only [parseMetaItems]
      rw [parseMetaObj_rt st hst (lvl + 1) m _ hwf1.1]
      dsimp only
      rw [skipJWs_ws_append _ _ (hbc lvl), skipJWs_cons ']' _ (by decide)]
      dsimp only
      rw [if_neg (by decide), if_pos rfl]
    | cons m2 rs2 =>
      have h1 : joinSep (',' :: st.afterComma lvl)
          ((m :: m2 :: rs2).map (encMeta st (lvl + 1))) ++
          (st.beforeClose lvl ++ (']' :: rest)) =
          encMeta st (lvl + 1) m ++
            (',' :: (st.afterComma lvl ++
              (joinSep (',' :: st.afterComma lvl) ((m2 :: rs2).map (encMeta st (lvl + 1))) ++
                (st.beforeClose lvl ++ (']' :: rest))))) := by
        simp [joinSep]
      rw [h1]
      simp only [parseMetaItems]
      rw [parseMetaObj_rt st hst (lvl + 1) m _ hwf1.1]
      dsimp only
      rw [skipJWs_cons ',' _ (by decide)]
      dsimp only
      rw [if_pos rfl, skipJWs_ws_append _ _ (hcm lvl)]
      obtain ⟨u, hu⟩ := encMeta_head st (lvl + 1) m2
      obtain ⟨u2, hu2⟩ := joinSep_head (',' :: st.afterComma lvl) (encMeta st (lvl + 1) m2)
        (rs2.map (encMeta st (lvl + 1))) '\x7b' u hu
      have hJ : joinSep (',' :: st.afterComma lvl) ((m2 :: rs2).map (encMeta st (lvl + 1))) =
          '\x7b' :: u2 := by
        rw [show (m2 :: rs2).map (encMeta st (lvl + 1)) =
          encMeta st (lvl + 1) m2 :: rs2.map (encMeta st (lvl + 1)) from rfl]
        exact hu2
      rw [skipJWs_eq_self_of_head _ _ '\x7b' u2 hJ (by decide)]
      rw [ih f rest (List.cons_ne_nil _ _)
        (by simp only [List.length_cons] at hfuel ⊢; omega) hwf1.2]

/-- Decoding the serialised collection reproduces it, in any
whitespace layout, for well-typed records. -/
theorem json_loads_dumps (st : JStyle) (hst : GoodStyle st) (rs : List Meta)
    (hwf : wfMetas rs = true) : json_loads (json_dumps st rs) = some rs := by
  cases rs with
  | nil =>
    rw [show json_dumps st [] = s2l "[]" from rfl]
    rfl
  | cons m rs =>
    have h1 : json_dumps st (m :: rs) =
        '[' :: (st.afterOpen 0 ++
          (joinSep (',' :: st.afterComma 0) ((m :: rs).map (encMeta st 1)) ++
            (st.beforeClose 0 ++ (']' :: ([] : Str))))) := by
      simp [json_dumps, encContainer]
    rw [h1]
    simp only [json_loads]
    rw [skipJWs_cons '[' _ (by decide)]
    dsimp only
    rw [if_pos rfl, skipJWs_ws_append _ _ (hst.1 0)]
    obtain ⟨u, hu⟩ := encMeta_head st 1 m
    obtain ⟨u2, hu2⟩ := joinSep_head (',' :: st.afterComma 0) (encMeta st 1 m)
      (rs.map (encMeta st 1)) '\x7b' u hu
    have hJ : joinSep (',' :: st.afterComma 0) ((m :: rs).map (encMeta st 1)) =
        '\x7b' :: u2 := by
      rw [show (m :: rs).map (encMeta st 1) = encMeta st 1 m :: rs.map (encMeta st 1) from rfl]
      exact hu2
    rw [skipJWs_eq_self_of_head _ _ '\x7b' u2 hJ (by decide)]
    rw [hJ, List.cons_append]
    dsimp only
    rw [if_neg (by decide)]
    rw [show ('\x7b' : Char) :: (u2 ++ (st.beforeClose 0 ++ (']' :: ([] : Str)))) =
        joinSep (',' :: st.afterComma 0) ((m :: rs).map (encMeta st 1)) ++
          (st.beforeClose 0 ++ (']' :: ([] : Str))) from by rw [hJ, List.cons_append]]
    have hne : ∀ e ∈ (m :: rs).map (encMeta st 1), e ≠ [] := by
      intro e he
      obtain ⟨m', _, rfl⟩ := List.mem_map.mp he
      exact encMeta_ne_nil st 1 m'
    have hlen := joinSep_length_ge (',' :: st.afterComma 0) _ hne
    rw [hJ] at hlen
    rw [parseMetaItems_rt st hst 0 (m :: rs) _ [] (List.cons_ne_nil _ _)
      (by simp only [List.length_map, List.length_cons, List.length_append] at hlen ⊢; omega)
      hwf]
    rfl

/-- Every record assembled by process_app is well typed: collection
values sit exactly under their two field names. -/
theorem wfMeta_assembleMeta (env : Env) (args : Args) (p : Str) :
    wfMeta (assembleMeta env args p) = true := by
  cases h0 : args.uuid && env.isFile (binPathOf env p) <;>
    cases h1 : args.deps && env.isFile (binPathOf env p) <;>
      cases h2 : args.sdk && env.isFile (binPathOf env p) <;>
        cases h3 : args.codesign <;>
          simp [assembleMeta, h0, h1, h2, h3, wfMeta, wfKV, List.all_append] <;>
            decide

/-- A record produced by process_app is an assembled record. -/
theorem process_app_some (env : Env) (args : Args) (path : Str) (m : Meta)
    (h : (process_app env args path).1 = some m) :
    m = assembleMeta env args (rstripSlash path) := by
  simp only [process_app] at h
  split at h
  · split at h
    · exact (Option.some_inj.mp h).symm
    · cases h
  · cases h

/-- Every collection gathered by main is well typed. -/
theorem wfMetas_gather (env : Env) (args : Args) (paths : List Str) :
    wfMetas (gather env args paths).1 = true := by
  induction paths with
  | nil => rfl
  | cons a rest ih =>
    simp only [gather]
    cases hpr : (process_app env args a).1 with
    | none => exact ih
    | some m =>
      have hm := process_app_some env args a m hpr
      subst hm
      simp only [wfMetas, List.all_cons, Bool.and_eq_true]
      exact ⟨wfMeta_assembleMeta env args (rstripSlash a), ih⟩

/-- C7: structured-render round-trip — for every collection of
assembled records (the records gathered by main over any environment,
flag set and input paths), decoding the uncolored serialised output in
either the compact or the indented layout reproduces a collection
equal to the input collection field-for-field, in the same order. -/
theorem claim_C7 (env : Env) (args : Args) (paths : List Str) :
    json_loads (json_dumps compactStyle (gather env args paths).1) =
        some (gather env args paths).1 ∧
      json_loads (json_dumps indentStyle (gather env args paths).1) =
        some (gather env args paths).1 :=
  ⟨json_loads_dumps compactStyle goodStyle_compact _ (wfMetas_gather env args paths),
   json_loads_dumps indentStyle goodStyle_indent _ (wfMetas_gather env args paths)⟩
